import Mathlib

set_option maxRecDepth 1000000

/-!
Verification of the `CheckpointIndex` bitmap data structure from
`exp/lighthorizon/index/types` (spec sections 3, 4, 6, 7 and 8).  The
implementation file `bitmap.go` is absent from the available sources (only its
test file `bitmap_test.go` is present), so every operation below is modelled
from the specification's own description of the source and is checked against
the concrete vectors of `bitmap_test.go`.

Machine integers (`uint32`, `byte`) are modelled as `Nat`; byte values are kept
below 256 by the structural invariant `Inv`.
-/

/-- Modelled from the spec: the record of section 3.  `bitmap.go` itself is
missing from the sources; the fields are `firstCheckpoint`, `lastCheckpoint`
and the packed `bitmap` of bytes, exactly as the tests read them. -/
structure CheckpointIndex where
  firstCheckpoint : Nat
  lastCheckpoint : Nat
  bitmap : List Nat
  deriving DecidableEq

/-- Modelled from the spec: the closed error variant of section 7
(end-of-stream is Go's `io.EOF`; malformed-blob is the constructor failure). -/
inductive BitmapErr where
  | eof
  | malformedBlob
  deriving DecidableEq

/-- Modelled from the spec: construction yields all fields zero (section 4.1). -/
def emptyIndex : CheckpointIndex :=
  { firstCheckpoint := 0, lastCheckpoint := 0, bitmap := [] }

/-- Modelled from the spec: the byte-aligned anchor `((c - 1) / 8) * 8 + 1`
(section 3). -/
def byteAlign (c : Nat) : Nat := (c - 1) / 8 * 8 + 1

/-- Modelled from the spec: `range_first_checkpoint()` (section 3). -/
def CheckpointIndex.rangeFirstCheckpoint (i : CheckpointIndex) : Nat :=
  byteAlign i.firstCheckpoint

/-- Modelled from the spec: bit addressing of section 3 — the offset `k` from
the anchor lives in byte `k / 8` under mask `0x80 >> (k % 8)`, counted from the
most significant bit. -/
def bmBit (bm : List Nat) (k : Nat) : Bool :=
  bm.getD (k / 8) 0 &&& (128 >>> (k % 8)) != 0

/-- Modelled from the spec: OR the bit with offset `k` into the byte holding
it (bit addressing of section 3). -/
def setBmBit (bm : List Nat) (k : Nat) : List Nat :=
  bm.set (k / 8) (bm.getD (k / 8) 0 ||| (128 >>> (k % 8)))

/-- Modelled from the spec: `set_active` (section 4.2), cases A through E.
Case B covers both the in-span bit update and the idempotent case E; cases C
and D extend the bitmap to the right and to the left respectively. -/
def setActive (i : CheckpointIndex) (c : Nat) : CheckpointIndex :=
  if i.firstCheckpoint = 0 then
    { firstCheckpoint := c, lastCheckpoint := c,
      bitmap := [128 >>> ((c - byteAlign c) % 8)] }
  else
    if i.rangeFirstCheckpoint ≤ c ∧
        c - i.rangeFirstCheckpoint < 8 * i.bitmap.length then
      { firstCheckpoint := min i.firstCheckpoint c,
        lastCheckpoint := max i.lastCheckpoint c,
        bitmap := setBmBit i.bitmap (c - i.rangeFirstCheckpoint) }
    else if i.lastCheckpoint < c then
      { firstCheckpoint := i.firstCheckpoint,
        lastCheckpoint := c,
        bitmap := setBmBit
          (i.bitmap ++ List.replicate
            ((c - i.rangeFirstCheckpoint) / 8 + 1 - i.bitmap.length) 0)
          (c - i.rangeFirstCheckpoint) }
    else
      { firstCheckpoint := c,
        lastCheckpoint := i.lastCheckpoint,
        bitmap := setBmBit
          (List.replicate ((i.rangeFirstCheckpoint - byteAlign c) / 8) 0
            ++ i.bitmap)
          (c - byteAlign c) }

/-- Modelled from the spec: the public `SetActive` carries an error in its Go
signature but the operation never fails (sections 4.2 and 9). -/
def SetActive (i : CheckpointIndex) (c : Nat) : CheckpointIndex × Option BitmapErr :=
  (setActive i c, none)

/-- Modelled from the spec: `is_active` (section 4.4) — true iff `c` lies in
`[first_checkpoint, last_checkpoint]` of a non-empty index and its bit is set. -/
def isActive (i : CheckpointIndex) (c : Nat) : Bool :=
  if i.firstCheckpoint ≠ 0 ∧ i.firstCheckpoint ≤ c ∧ c ≤ i.lastCheckpoint then
    bmBit i.bitmap (c - i.rangeFirstCheckpoint)
  else false

/-- Modelled from the spec: test of one bit position of a byte, mask
`0x80 >> t` from the most significant bit (sections 3 and 4.3). -/
def byteBit (b t : Nat) : Bool := b &&& (128 >>> t) != 0

/-- Modelled from the spec: locate the most significant set bit of a (masked)
byte; positions are counted 0 to 7 from the most significant bit, and `(0,
false)` is the not-found sentinel (section 4.3). -/
def msbPos (m : Nat) : Nat × Bool :=
  if byteBit m 0 then (0, true)
  else if byteBit m 1 then (1, true)
  else if byteBit m 2 then (2, true)
  else if byteBit m 3 then (3, true)
  else if byteBit m 4 then (4, true)
  else if byteBit m 5 then (5, true)
  else if byteBit m 6 then (6, true)
  else if byteBit m 7 then (7, true)
  else (0, false)

/-- Modelled from the spec: `max_bit_after(byte, after)` — mask the byte with
`0xFF >> after` to clear the positions before `after`, then locate the most
significant set bit of the result (section 4.3). -/
def maxBitAfter (b after : Nat) : Nat × Bool := msbPos (b &&& (255 >>> after))

/-- Modelled from the spec: the byte-at-a-time scan of `next_active`, step 4 of
section 4.3 — on the first byte only positions at or after the within-byte
shift count, afterwards the whole byte. -/
def scanBytes : List Nat → Nat → Nat → Nat × Bool
  | [], _, _ => (0, false)
  | b :: rest, base, s =>
    if (maxBitAfter b s).2 then (base + (maxBitAfter b s).1, true)
    else scanBytes rest (base + 8) 0

/-- Modelled from the spec: `next_active(from)` (section 4.3): fail with
end-of-stream on an empty index or `from > last_checkpoint`, clamp to
`first_checkpoint`, then scan bytes; a failed scan is also end-of-stream.  The
Go function returns the pair `(uint32, error)`, with `(0, io.EOF)` on failure. -/
def NextActive (i : CheckpointIndex) (c0 : Nat) : Nat × Option BitmapErr :=
  if i.firstCheckpoint = 0 ∨ i.lastCheckpoint < c0 then (0, some .eof)
  else
    let start := max c0 i.firstCheckpoint
    let off := start - i.rangeFirstCheckpoint
    let res := scanBytes (i.bitmap.drop (off / 8))
      (i.rangeFirstCheckpoint + 8 * (off / 8)) (off % 8)
    if res.2 then (res.1, none) else (0, some .eof)

/-- Modelled from the spec: copy/OR a byte sequence into a buffer at a byte
offset (step 4 of section 4.5). -/
def orInto : List Nat → Nat → List Nat → List Nat
  | buf, _, [] => buf
  | buf, off, b :: rest => orInto (buf.set off (buf.getD off 0 ||| b)) (off + 1) rest

/-- Modelled from the spec: `merge` (section 4.5) — union of two indexes into
`self`, re-anchored at the byte-aligned anchor of the smaller first
checkpoint. -/
def mergeIdx (a b : CheckpointIndex) : CheckpointIndex :=
  if b.firstCheckpoint = 0 then a
  else if a.firstCheckpoint = 0 then b
  else
    let f := min a.firstCheckpoint b.firstCheckpoint
    let l := max a.lastCheckpoint b.lastCheckpoint
    let buf0 := List.replicate ((l - byteAlign f + 1 + 7) / 8) 0
    let buf1 := orInto buf0 ((a.rangeFirstCheckpoint - byteAlign f) / 8) a.bitmap
    let buf2 := orInto buf1 ((b.rangeFirstCheckpoint - byteAlign f) / 8) b.bitmap
    { firstCheckpoint := f, lastCheckpoint := l, bitmap := buf2 }

/-- Modelled from the spec: the public `Merge` admits an error in its Go
signature but is unconditionally successful (sections 4.5 and 9). -/
def Merge (a b : CheckpointIndex) : CheckpointIndex × Option BitmapErr :=
  (mergeIdx a b, none)

/-- Modelled from the spec: big-endian u32 framing field (section 6). -/
def u32be (n : Nat) : List Nat :=
  [n / 2 ^ 24 % 256, n / 2 ^ 16 % 256, n / 2 ^ 8 % 256, n % 256]

/-- Modelled from the spec: `flush` — first checkpoint, last checkpoint, bitmap
length, raw bitmap bytes (section 6). -/
def Flush (i : CheckpointIndex) : List Nat :=
  u32be i.firstCheckpoint ++ u32be i.lastCheckpoint ++
    u32be i.bitmap.length ++ i.bitmap

/-- Modelled from the spec: read a big-endian u32 from the head of a byte
sequence (section 6). -/
def readU32BE (bs : List Nat) : Nat :=
  match bs with
  | b0 :: b1 :: b2 :: b3 :: _ => ((b0 * 256 + b1) * 256 + b2) * 256 + b3
  | _ => 0

/-- Modelled from the spec: `new_from_bytes` (sections 4.1 and 6) with the
mandated structural verification; the empty blob and the canonical all-zero
blob reconstruct the empty index, all violations are malformed-blob. -/
def NewCheckpointIndex (bs : List Nat) : Except BitmapErr CheckpointIndex :=
  if bs.length = 0 then .ok emptyIndex
  else if bs.length < 12 then .error .malformedBlob
  else
    let f := readU32BE bs
    let l := readU32BE (bs.drop 4)
    let len := readU32BE (bs.drop 8)
    let bm := bs.drop 12
    if bm.length ≠ len then .error .malformedBlob
    else if f = 0 then
      if l = 0 ∧ len = 0 then .ok emptyIndex else .error .malformedBlob
    else if len ≠ (l - byteAlign f + 1 + 7) / 8 then .error .malformedBlob
    else if bmBit bm (f - byteAlign f) = false then .error .malformedBlob
    else if bmBit bm (l - byteAlign f) = false then .error .malformedBlob
    else .ok { firstCheckpoint := f, lastCheckpoint := l, bitmap := bm }

/-- Modelled from the spec: the iteration protocol of section 4.3 — repeatedly
call `next_active(previous + 1)` until end-of-stream.  The fuel argument only
bounds the recursion; `lastCheckpoint + 1` steps always suffice. -/
def iterFrom (i : CheckpointIndex) : Nat → Nat → List Nat
  | _, 0 => []
  | prev, fuel + 1 =>
    match NextActive i (prev + 1) with
    | (c, none) => c :: iterFrom i c fuel
    | (_, some _) => []

/-- Modelled from the spec: visit all active checkpoints in ascending order
(section 4.3), starting from `previous = 0`. -/
def iterateAll (i : CheckpointIndex) : List Nat :=
  iterFrom i 0 (i.lastCheckpoint + 1)

/-- Fold a sequence of `set_active` calls over the empty index. -/
def buildIndex (l : List Nat) : CheckpointIndex :=
  l.foldl (fun i c => (SetActive i c).1) emptyIndex

/-- All bytes of a bitmap are in range. -/
def ByteOk (bm : List Nat) : Prop := ∀ b ∈ bm, b < 256

/-- The structural invariants of section 3 (items 1 to 5): either the index is
empty with all fields zero, or the anchors are ordered, the bitmap is tight
(length formula of item 2), the bits of both anchors are set (item 4) and every
set bit lies between the anchors (item 3).  Byte-alignment (item 5) holds by
construction of `byteAlign`. -/
def BitmapInv (i : CheckpointIndex) : Prop :=
  (i.firstCheckpoint = 0 ∧ i.lastCheckpoint = 0 ∧ i.bitmap = []) ∨
  (1 ≤ i.firstCheckpoint ∧ i.firstCheckpoint ≤ i.lastCheckpoint ∧
   ByteOk i.bitmap ∧
   i.bitmap.length = (i.lastCheckpoint - i.rangeFirstCheckpoint) / 8 + 1 ∧
   bmBit i.bitmap (i.firstCheckpoint - i.rangeFirstCheckpoint) = true ∧
   bmBit i.bitmap (i.lastCheckpoint - i.rangeFirstCheckpoint) = true ∧
   ∀ k, k < 8 * i.bitmap.length → bmBit i.bitmap k = true →
     i.firstCheckpoint ≤ i.rangeFirstCheckpoint + k ∧
     i.rangeFirstCheckpoint + k ≤ i.lastCheckpoint)

/-- States reachable from the empty index by the public mutators with
well-formed arguments. -/
inductive Reachable : CheckpointIndex → Prop
  | empty : Reachable emptyIndex
  | set {i : CheckpointIndex} {c : Nat} :
      Reachable i → 1 ≤ c → Reachable (SetActive i c).1
  | mrg {i j : CheckpointIndex} :
      Reachable i → Reachable j → Reachable (Merge i j).1

/-- The bit stored for checkpoint `x`, ignoring the range guard of
`is_active`. -/
def rawActive (i : CheckpointIndex) (x : Nat) : Bool :=
  decide (i.rangeFirstCheckpoint ≤ x) && bmBit i.bitmap (x - i.rangeFirstCheckpoint)


/-- Combined contract of one `set_active` call from a state satisfying the
invariants: the invariants are preserved, the anchors move to the min/max, and
exactly the bit of `c` is added. -/
def SetActiveSpec (i : CheckpointIndex) (c : Nat) : Prop :=
  BitmapInv (setActive i c) ∧
  (setActive i c).firstCheckpoint
    = (if i.firstCheckpoint = 0 then c else min i.firstCheckpoint c) ∧
  (setActive i c).lastCheckpoint
    = (if i.firstCheckpoint = 0 then c else max i.lastCheckpoint c) ∧
  ∀ x, rawActive (setActive i c) x = (rawActive i x || decide (x = c))


/-- Combined contract of `merge`: invariants are preserved, the anchors move to
the min/max of the non-empty inputs, and the stored bits become the union. -/
def MergeSpec (a b : CheckpointIndex) : Prop :=
  BitmapInv (mergeIdx a b) ∧
  (mergeIdx a b).firstCheckpoint
    = (if b.firstCheckpoint = 0 then a.firstCheckpoint
       else if a.firstCheckpoint = 0 then b.firstCheckpoint
       else min a.firstCheckpoint b.firstCheckpoint) ∧
  (mergeIdx a b).lastCheckpoint
    = (if b.firstCheckpoint = 0 then a.lastCheckpoint
       else if a.firstCheckpoint = 0 then b.lastCheckpoint
       else max a.lastCheckpoint b.lastCheckpoint) ∧
  ∀ x, rawActive (mergeIdx a b) x = (rawActive a x || rawActive b x)


/-- Executable statement of the `max_bit_after` contract, checked exhaustively
over all byte values and positions. -/
def mbaOK (b a : Nat) : Bool :=
  if (maxBitAfter b a).2 then
    decide (a ≤ (maxBitAfter b a).1) && decide ((maxBitAfter b a).1 < 8) &&
      byteBit b (maxBitAfter b a).1 &&
      ((List.range 8).all fun j =>
        decide (j < a) || decide ((maxBitAfter b a).1 ≤ j) || !byteBit b j)
  else (List.range 8).all fun j => decide (j < a) || !byteBit b j



-- ### Sample indexes for the witnesses

def sampleA : CheckpointIndex := buildIndex [9, 129]

def sampleB : CheckpointIndex := buildIndex [900, 1000]

instance decBitmapInv (i : CheckpointIndex) : Decidable (BitmapInv i) := by
  unfold BitmapInv ByteOk
  infer_instance

-- Sanity checks against the concrete vectors of `bitmap_test.go`.

example : setActive emptyIndex 1 = ⟨1, 1, [128]⟩ := by decide
example : setActive emptyIndex 8 = ⟨8, 8, [1]⟩ := by decide
example : setActive emptyIndex 9 = ⟨9, 9, [128]⟩ := by decide
example : (setActive emptyIndex 9).rangeFirstCheckpoint = 9 := by decide
example : setActive (setActive emptyIndex 1) 8 = ⟨1, 8, [129]⟩ := by decide
example : setActive (setActive emptyIndex 8) 1 = ⟨1, 8, [129]⟩ := by decide
example : setActive (setActive (setActive emptyIndex 10) 9) 16 = ⟨9, 16, [193]⟩ := by decide
example : setActive (setActive emptyIndex 10) 1 = ⟨1, 10, [128, 64]⟩ := by decide
example : setActive (setActive emptyIndex 17) 2 = ⟨2, 17, [64, 0, 128]⟩ := by decide
example : setActive (setActive emptyIndex 2) 17 = ⟨2, 17, [64, 0, 128]⟩ := by decide
example : setActive (setActive emptyIndex 17) 26 = ⟨17, 26, [128, 64]⟩ := by decide

example : NextActive emptyIndex 0 = (0, some .eof) := by decide
example : NextActive (setActive emptyIndex 3) 16 = (0, some .eof) := by decide
example : NextActive (setActive emptyIndex 1) 1 = (1, none) := by decide
example : NextActive (setActive emptyIndex 9) 1 = (9, none) := by decide
example : NextActive (setActive (setActive emptyIndex 9) 11) 10 = (11, none) := by decide
example : NextActive (setActive (setActive emptyIndex 9) 129) 11 = (129, none) := by decide
example : NextActive (setActive (setActive emptyIndex 9) 129) 130 = (0, some .eof) := by decide

example : maxBitAfter 0 0 = (0, false) := by decide
example : maxBitAfter 0 1 = (0, false) := by decide
example : maxBitAfter 128 0 = (0, true) := by decide
example : maxBitAfter 64 0 = (1, true) := by decide
example : maxBitAfter 64 1 = (1, true) := by decide
example : maxBitAfter 40 0 = (2, true) := by decide
example : maxBitAfter 40 2 = (2, true) := by decide
example : maxBitAfter 40 3 = (4, true) := by decide
example : maxBitAfter 1 7 = (7, true) := by decide

example : iterateAll (mergeIdx (buildIndex [9, 129]) (buildIndex [900, 1000]))
    = [9, 129, 900, 1000] := by decide

example : NewCheckpointIndex (Flush (buildIndex [17, 2])) = .ok (buildIndex [17, 2]) := rfl
example : NewCheckpointIndex (Flush emptyIndex) = .ok emptyIndex := rfl

-- ### Arithmetic facts about the byte-aligned anchor

theorem byteAlign_le {c : Nat} (h : 1 ≤ c) : byteAlign c ≤ c := by
  unfold byteAlign; omega

theorem sub_byteAlign_lt (c : Nat) : c - byteAlign c < 8 := by
  unfold byteAlign; omega

theorem byteAlign_sub_one_mod (c : Nat) : (byteAlign c - 1) % 8 = 0 := by
  unfold byteAlign; omega

theorem byteAlign_of_mem {f c : Nat} (h1 : byteAlign f ≤ c) (h2 : c < byteAlign f + 8) :
    byteAlign c = byteAlign f := by
  unfold byteAlign at *; omega

theorem byteAlign_mono {c d : Nat} (h : c ≤ d) : byteAlign c ≤ byteAlign d := by
  unfold byteAlign
  have h2 : (c - 1) / 8 ≤ (d - 1) / 8 := Nat.div_le_div_right (Nat.sub_le_sub_right h 1)
  omega

theorem byteAlign_dvd_sub {c d : Nat} (h : c ≤ d) :
    8 ∣ byteAlign d - byteAlign c := by
  unfold byteAlign
  have h8 : (c - 1) / 8 * 8 ≤ (d - 1) / 8 * 8 :=
    Nat.mul_le_mul_right 8 (Nat.div_le_div_right (Nat.sub_le_sub_right h 1))
  exact ⟨(d - 1) / 8 - (c - 1) / 8, by omega⟩

-- ### Byte-level bit facts

theorem mask_shift_eq {s : Nat} (h : s < 8) : 128 >>> s = 2 ^ (7 - s) := by
  interval_cases s <;> rfl

theorem and_two_pow_ne (x j : Nat) : x &&& 2 ^ j ≠ 0 ↔ x.testBit j := by
  constructor
  · intro h
    obtain ⟨k, hk⟩ := Nat.ne_zero_implies_bit_true h
    rw [Nat.testBit_land] at hk
    have h2 : (2 ^ j).testBit k := (Bool.and_eq_true _ _ |>.mp hk).2
    by_cases hkj : j = k
    · subst hkj; exact (Bool.and_eq_true _ _ |>.mp hk).1
    · rw [Nat.testBit_two_pow_of_ne hkj] at h2; exact absurd h2 (by simp)
  · intro h hz
    have hb : (x &&& 2 ^ j).testBit j = true := by
      simp [Nat.testBit_land, h, Nat.testBit_two_pow_self]
    rw [hz, Nat.zero_testBit] at hb
    exact absurd hb (by simp)

theorem byteBit_testBit {b t : Nat} (h : t < 8) : byteBit b t = b.testBit (7 - t) := by
  refine Bool.eq_iff_iff.mpr ?_
  unfold byteBit
  rw [mask_shift_eq h, bne_iff_ne]
  simpa using and_two_pow_ne b (7 - t)

theorem byteBit_or {x y t : Nat} (h : t < 8) :
    byteBit (x ||| y) t = (byteBit x t || byteBit y t) := by
  rw [byteBit_testBit h, byteBit_testBit h, byteBit_testBit h, Nat.testBit_lor]

theorem byteBit_mask {s t : Nat} (hs : s < 8) (ht : t < 8) :
    byteBit (128 >>> s) t = decide (t = s) := by
  rw [byteBit_testBit ht, mask_shift_eq hs]
  rcases Nat.decEq t s with hne | heq
  · have : 7 - s ≠ 7 - t := by omega
    rw [Nat.testBit_two_pow_of_ne this]
    simp [hne]
  · subst heq
    simp [Nat.testBit_two_pow_self]

theorem byteBit_zero (t : Nat) : byteBit 0 t = false := by
  unfold byteBit
  simp [Nat.zero_and]

theorem byte_or_lt {x y : Nat} (hx : x < 256) (hy : y < 256) : x ||| y < 256 := by
  have h1 : x < 2 ^ 8 := by omega
  have h2 : y < 2 ^ 8 := by omega
  have h3 := Nat.or_lt_two_pow h1 h2
  omega

theorem mask_lt (s : Nat) : 128 >>> s < 256 := by
  have : 128 >>> s ≤ 128 := by
    rw [Nat.shiftRight_eq_div_pow]
    exact Nat.div_le_self 128 (2 ^ s)
  omega

-- ### Facts about `List.getD` at default 0

theorem getD_eq_zero_of_le {l : List Nat} {n : Nat} (h : l.length ≤ n) :
    l.getD n 0 = 0 := by
  simp [List.getD_eq_getElem?_getD, List.getElem?_eq_none h]

theorem getD_lt_256 {l : List Nat} (h : ByteOk l) (j : Nat) : l.getD j 0 < 256 := by
  by_cases hj : j < l.length
  · rw [List.getD_eq_getElem l 0 hj]
    exact h _ (List.getElem_mem hj)
  · rw [getD_eq_zero_of_le (by omega)]
    omega

theorem getD_append_replicate (bm : List Nat) (m j : Nat) :
    (bm ++ List.replicate m 0).getD j 0 = bm.getD j 0 := by
  by_cases hj : j < bm.length
  · simp [List.getD_eq_getElem?_getD, List.getElem?_append_left hj]
  · have hz0 : bm.getD j 0 = 0 := getD_eq_zero_of_le (by omega)
    rw [hz0]
    by_cases hj2 : j < bm.length + m
    · simp only [List.getD_eq_getElem?_getD, List.getElem?_append_right (by omega : bm.length ≤ j)]
      simp only [List.getElem?_replicate]
      split <;> rfl
    · rw [getD_eq_zero_of_le (by simp; omega)]

theorem getD_prepend_replicate_lt {m j : Nat} (bm : List Nat) (h : j < m) :
    (List.replicate m 0 ++ bm).getD j 0 = 0 := by
  simp only [List.getD_eq_getElem?_getD,
    List.getElem?_append_left (by simp only [List.length_replicate]; omega : j < (List.replicate m (0:Nat)).length)]
  simp [List.getElem?_replicate, h]

theorem getD_prepend_replicate_ge (m j : Nat) (bm : List Nat) :
    (List.replicate m 0 ++ bm).getD (m + j) 0 = bm.getD j 0 := by
  simp only [List.getD_eq_getElem?_getD,
    List.getElem?_append_right (by simp only [List.length_replicate]; omega : (List.replicate m (0:Nat)).length ≤ m + j)]
  simp [List.length_replicate]

-- ### Facts about `bmBit`

theorem bmBit_def (bm : List Nat) (k : Nat) :
    bmBit bm k = byteBit (bm.getD (k / 8) 0) (k % 8) := rfl

theorem bmBit_of_le {bm : List Nat} {k : Nat} (h : bm.length ≤ k / 8) :
    bmBit bm k = false := by
  rw [bmBit_def, getD_eq_zero_of_le h]
  exact byteBit_zero _

theorem bmBit_ge {bm : List Nat} {k : Nat} (h : 8 * bm.length ≤ k) :
    bmBit bm k = false :=
  bmBit_of_le (by omega)

theorem bmBit_lt_of_true {bm : List Nat} {k : Nat} (h : bmBit bm k = true) :
    k < 8 * bm.length := by
  by_contra hk
  rw [bmBit_ge (by omega)] at h
  exact absurd h (by simp)

theorem bmBit_cons_lt {s : Nat} {rest : List Nat} {j : Nat} (h : j < 8) :
    bmBit (s :: rest) j = byteBit s j := by
  rw [bmBit_def]
  rw [Nat.div_eq_of_lt h, Nat.mod_eq_of_lt h]
  rfl

theorem bmBit_cons_ge {s : Nat} {rest : List Nat} {j : Nat} (h : 8 ≤ j) :
    bmBit (s :: rest) j = bmBit rest (j - 8) := by
  rw [bmBit_def, bmBit_def]
  have h1 : j / 8 = (j - 8) / 8 + 1 := by omega
  have h2 : j % 8 = (j - 8) % 8 := by omega
  rw [h1, h2]
  rfl

theorem bmBit_append_replicate (bm : List Nat) (m k : Nat) :
    bmBit (bm ++ List.replicate m 0) k = bmBit bm k := by
  rw [bmBit_def, bmBit_def, getD_append_replicate]

theorem bmBit_prepend_replicate (m : Nat) (bm : List Nat) (k : Nat) :
    bmBit (List.replicate m 0 ++ bm) k
      = (decide (8 * m ≤ k) && bmBit bm (k - 8 * m)) := by
  by_cases h : 8 * m ≤ k
  · have h1 : k / 8 = m + (k - 8 * m) / 8 := by omega
    have h2 : k % 8 = (k - 8 * m) % 8 := by omega
    rw [bmBit_def, h1, h2, getD_prepend_replicate_ge, bmBit_def]
    simp [h]
  · have h1 : k / 8 < m := by omega
    rw [bmBit_def, getD_prepend_replicate_lt bm h1, byteBit_zero]
    simp [h]

-- ### Facts about `setBmBit`

theorem length_setBmBit (bm : List Nat) (k : Nat) :
    (setBmBit bm k).length = bm.length := by
  unfold setBmBit
  exact List.length_set bm _ _

theorem byteOk_setBmBit {bm : List Nat} (h : ByteOk bm) (k : Nat) :
    ByteOk (setBmBit bm k) := by
  unfold setBmBit
  intro b hb
  rcases List.mem_or_eq_of_mem_set hb with hmem | heq
  · exact h b hmem
  · subst heq
    exact byte_or_lt (getD_lt_256 h _) (mask_lt _)

theorem bmBit_setBmBit {bm : List Nat} {k' : Nat} (h : k' / 8 < bm.length) (k : Nat) :
    bmBit (setBmBit bm k') k = (bmBit bm k || decide (k = k')) := by
  have hm8 : k % 8 < 8 := Nat.mod_lt _ (by norm_num)
  have hm8' : k' % 8 < 8 := Nat.mod_lt _ (by norm_num)
  by_cases hb : k / 8 = k' / 8
  · rw [bmBit_def, bmBit_def]
    unfold setBmBit
    have hset : (bm.set (k' / 8) (bm.getD (k' / 8) 0 ||| 128 >>> (k' % 8))).getD (k / 8) 0
        = bm.getD (k' / 8) 0 ||| 128 >>> (k' % 8) := by
      rw [hb]
      simp [List.getD_eq_getElem?_getD, List.getElem?_set_self', h]
    rw [hset, byteBit_or hm8, byteBit_mask hm8' hm8, hb]
    have : decide (k % 8 = k' % 8) = decide (k = k') := by
      simp only [decide_eq_decide]
      omega
    rw [this]
  · rw [bmBit_def, bmBit_def]
    unfold setBmBit
    have hset : (bm.set (k' / 8) (bm.getD (k' / 8) 0 ||| 128 >>> (k' % 8))).getD (k / 8) 0
        = bm.getD (k / 8) 0 := by
      simp [List.getD_eq_getElem?_getD, List.getElem?_set_ne (by omega : k' / 8 ≠ k / 8)]
    rw [hset]
    have : decide (k = k') = false := by simp; omega
    rw [this, Bool.or_false]

-- ### Facts about `orInto`

theorem length_orInto (src : List Nat) :
    ∀ (buf : List Nat) (off : Nat), (orInto buf off src).length = buf.length := by
  induction src with
  | nil => intro buf off; rfl
  | cons s rest ih =>
    intro buf off
    simp only [orInto]
    rw [ih]
    exact List.length_set buf _ _

theorem byteOk_orInto {src : List Nat} (hsrc : ByteOk src) :
    ∀ (buf : List Nat) (off : Nat), ByteOk buf → ByteOk (orInto buf off src) := by
  induction src with
  | nil => intro buf off hbuf; exact hbuf
  | cons s rest ih =>
    intro buf off hbuf
    simp only [orInto]
    refine ih (fun b hb => hsrc b (List.mem_cons_of_mem s hb)) _ _ ?_
    intro b hb
    rcases List.mem_or_eq_of_mem_set hb with hmem | heq
    · exact hbuf b hmem
    · subst heq
      exact byte_or_lt (getD_lt_256 hbuf _) (hsrc s (List.mem_cons_self s rest))

theorem getD_set_self {l : List Nat} {n : Nat} (v : Nat) (h : n < l.length) :
    (l.set n v).getD n 0 = v := by
  simp [List.getD_eq_getElem?_getD, List.getElem?_set_self', h]

theorem getD_set_other {l : List Nat} {n m : Nat} (v : Nat) (h : n ≠ m) :
    (l.set n v).getD m 0 = l.getD m 0 := by
  simp [List.getD_eq_getElem?_getD, List.getElem?_set_ne h]

theorem bmBit_orInto (src : List Nat) :
    ∀ (buf : List Nat) (off k : Nat), off + src.length ≤ buf.length →
    bmBit (orInto buf off src) k
      = (bmBit buf k || (decide (8 * off ≤ k) && bmBit src (k - 8 * off))) := by
  induction src with
  | nil =>
    intro buf off k _
    rw [show orInto buf off [] = buf from rfl]
    have hz0 : bmBit ([] : List Nat) (k - 8 * off) = false := bmBit_of_le (by simp)
    rw [hz0]
    simp
  | cons s rest ih =>
    intro buf off k h
    simp only [List.length_cons] at h
    have hoff : off < buf.length := by omega
    simp only [orInto]
    rw [ih _ _ _ (by rw [List.length_set]; omega)]
    by_cases hk1 : k < 8 * off
    · have hd : k / 8 ≠ off := by omega
      rw [bmBit_def, getD_set_other _ (by omega), ← bmBit_def]
      have e1 : decide (8 * off ≤ k) = false := by simp; omega
      have e2 : decide (8 * (off + 1) ≤ k) = false := by simp; omega
      rw [e1, e2]
      simp
    · by_cases hk2 : k < 8 * off + 8
      · have hd : k / 8 = off := by omega
        have hbuf : bmBit buf k = byteBit (buf.getD off 0) (k % 8) := by
          rw [bmBit_def, hd]
        rw [bmBit_def, hd, getD_set_self _ hoff, byteBit_or (Nat.mod_lt _ (by norm_num)),
          ← hbuf]
        have e2 : decide (8 * (off + 1) ≤ k) = false := by simp; omega
        have e1 : decide (8 * off ≤ k) = true := by simp; omega
        rw [e1, e2]
        have hcons : bmBit (s :: rest) (k - 8 * off) = byteBit s (k - 8 * off) :=
          bmBit_cons_lt (by omega)
        have hmod : k % 8 = k - 8 * off := by omega
        rw [hcons, hmod]
        simp
      · have hd : k / 8 ≠ off := by omega
        rw [bmBit_def, getD_set_other _ (by omega), ← bmBit_def]
        have e1 : decide (8 * off ≤ k) = true := by simp; omega
        have e2 : decide (8 * (off + 1) ≤ k) = true := by simp; omega
        rw [e1, e2]
        have hcons : bmBit (s :: rest) (k - 8 * off) = bmBit rest (k - 8 * off - 8) :=
          bmBit_cons_ge (by omega)
        rw [hcons]
        have : k - 8 * (off + 1) = k - 8 * off - 8 := by omega
        rw [this]

-- ### Correctness of `max_bit_after` on byte values

theorem byteBit_ge_eight {b j : Nat} (h : 8 ≤ j) : byteBit b j = false := by
  unfold byteBit
  have hz : 128 >>> j = 0 := by
    rw [Nat.shiftRight_eq_div_pow]
    have : (128 : Nat) < 2 ^ j :=
      Nat.lt_of_lt_of_le (by norm_num) (Nat.pow_le_pow_right (by norm_num) h)
    exact Nat.div_eq_of_lt this
  rw [hz]
  simp


theorem mbaOK_all : ∀ b < 256, ∀ a < 8, mbaOK b a = true := by decide

theorem maxBitAfter_found {b a : Nat} (hb : b < 256) (ha : a < 8)
    (h : (maxBitAfter b a).2 = true) :
    a ≤ (maxBitAfter b a).1 ∧ (maxBitAfter b a).1 < 8 ∧
    byteBit b (maxBitAfter b a).1 = true ∧
    ∀ j, a ≤ j → j < (maxBitAfter b a).1 → byteBit b j = false := by
  have hok := mbaOK_all b hb a ha
  rw [mbaOK, if_pos h] at hok
  simp only [Bool.and_eq_true, decide_eq_true_eq, List.all_eq_true, List.mem_range,
    Bool.or_eq_true, Bool.not_eq_true'] at hok
  refine ⟨hok.1.1.1, hok.1.1.2, hok.1.2, ?_⟩
  intro j haj hjr
  have hj := hok.2 j (by omega)
  cases hby : byteBit b j
  · rfl
  · simp [hby] at hj
    omega

theorem maxBitAfter_not_found {b a : Nat} (hb : b < 256) (ha : a < 8)
    (h : (maxBitAfter b a).2 = false) :
    ∀ j, a ≤ j → byteBit b j = false := by
  intro j haj
  by_cases hj : j < 8
  · have hok := mbaOK_all b hb a ha
    rw [mbaOK, if_neg (by simp [h])] at hok
    simp only [List.all_eq_true, List.mem_range, Bool.or_eq_true, decide_eq_true_eq,
      Bool.not_eq_true'] at hok
    have hj2 := hok j hj
    cases hby : byteBit b j
    · rfl
    · simp [hby] at hj2
      omega
  · exact byteBit_ge_eight (by omega)

-- ### Correctness of the byte scan

theorem byteOk_drop {bm : List Nat} (h : ByteOk bm) (n : Nat) : ByteOk (bm.drop n) :=
  fun b hb => h b (List.mem_of_mem_drop hb)

theorem bmBit_drop (bm : List Nat) (n k : Nat) :
    bmBit (bm.drop n) k = bmBit bm (8 * n + k) := by
  rw [bmBit_def, bmBit_def]
  have h1 : (8 * n + k) / 8 = n + k / 8 := by omega
  have h2 : (8 * n + k) % 8 = k % 8 := by omega
  rw [h1, h2]
  congr 1
  simp [List.getD_eq_getElem?_getD, List.getElem?_drop]

theorem scanBytes_none (bm : List Nat) :
    ∀ base s, ByteOk bm → s < 8 → (scanBytes bm base s).2 = false →
    ∀ k, s ≤ k → bmBit bm k = false := by
  induction bm with
  | nil =>
    intro base s _ _ _ k _
    exact bmBit_of_le (by simp)
  | cons b rest ih =>
    intro base s hok hs hscan k hk
    rw [scanBytes] at hscan
    by_cases hmba : (maxBitAfter b s).2 = true
    · rw [if_pos hmba] at hscan
      exact absurd hscan (by simp)
    · rw [if_neg (by simp [hmba])] at hscan
      have hb : b < 256 := hok b (List.mem_cons_self b rest)
      have hbyte := maxBitAfter_not_found hb hs (by simpa using hmba)
      by_cases hk8 : k < 8
      · rw [bmBit_cons_lt hk8]
        exact hbyte k hk
      · rw [bmBit_cons_ge (by omega)]
        exact ih (base + 8) 0 (fun x hx => hok x (List.mem_cons_of_mem b hx))
          (by norm_num) hscan (k - 8) (Nat.zero_le _)

theorem scanBytes_some (bm : List Nat) :
    ∀ base s, ByteOk bm → s < 8 → (scanBytes bm base s).2 = true →
    ∃ k, (scanBytes bm base s).1 = base + k ∧ s ≤ k ∧ bmBit bm k = true ∧
      ∀ j, s ≤ j → j < k → bmBit bm j = false := by
  induction bm with
  | nil =>
    intro base s _ _ hscan
    exact absurd hscan (by simp [scanBytes])
  | cons b rest ih =>
    intro base s hok hs hscan
    have hb : b < 256 := hok b (List.mem_cons_self b rest)
    rw [scanBytes] at hscan
    by_cases hmba : (maxBitAfter b s).2 = true
    · obtain ⟨h1, h2, h3, h4⟩ := maxBitAfter_found hb hs hmba
      refine ⟨(maxBitAfter b s).1, ?_, h1, ?_, ?_⟩
      · rw [scanBytes, if_pos hmba]
      · rw [bmBit_cons_lt h2]
        exact h3
      · intro j hj hjlt
        rw [bmBit_cons_lt (by omega)]
        exact h4 j hj hjlt
    · rw [if_neg (by simp [hmba])] at hscan
      have hbyte := maxBitAfter_not_found hb hs (by simpa using hmba)
      obtain ⟨k', he, _, hbit, hmin⟩ :=
        ih (base + 8) 0 (fun x hx => hok x (List.mem_cons_of_mem b hx)) (by norm_num) hscan
      refine ⟨8 + k', ?_, by omega, ?_, ?_⟩
      · rw [scanBytes, if_neg (by simp [hmba]), he]
        omega
      · rw [bmBit_cons_ge (by omega)]
        simpa using hbit
      · intro j hj hjlt
        by_cases hj8 : j < 8
        · rw [bmBit_cons_lt hj8]
          exact hbyte j hj
        · rw [bmBit_cons_ge (by omega)]
          exact hmin (j - 8) (Nat.zero_le _) (by omega)

-- ### The raw bit view of an index and its agreement with `is_active`


theorem isActive_eq_rawActive {i : CheckpointIndex} (hinv : BitmapInv i) (x : Nat) :
    isActive i x = rawActive i x := by
  rcases hinv with ⟨hf, _, hbm⟩ | ⟨hf1, hfl, _, hlen, _, _, hbnd⟩
  · rw [isActive, if_neg (by simp [hf])]
    rw [rawActive, hbm, bmBit_of_le (by simp)]
    simp
  · have hRf : byteAlign i.firstCheckpoint ≤ i.firstCheckpoint := byteAlign_le hf1
    by_cases hx1 : i.firstCheckpoint ≤ x ∧ x ≤ i.lastCheckpoint
    · rw [isActive, if_pos ⟨by omega, hx1.1, hx1.2⟩, rawActive,
        decide_eq_true (show i.rangeFirstCheckpoint ≤ x from by
          unfold CheckpointIndex.rangeFirstCheckpoint; omega)]
      simp
    · rw [isActive, if_neg (by rw [CheckpointIndex.rangeFirstCheckpoint] at *; omega)]
      by_cases hR : i.rangeFirstCheckpoint ≤ x
      · rw [rawActive, decide_eq_true hR]
        cases hbit : bmBit i.bitmap (x - i.rangeFirstCheckpoint)
        · simp
        · have hk := bmBit_lt_of_true hbit
          have := hbnd _ hk hbit
          rw [CheckpointIndex.rangeFirstCheckpoint] at *
          omega
      · rw [rawActive, decide_eq_false hR]
        simp

-- ### The behaviour of one `set_active` call


theorem setActive_spec_empty {i : CheckpointIndex} {c : Nat} (hinv : BitmapInv i)
    (hf0 : i.firstCheckpoint = 0) (hc : 1 ≤ c) : SetActiveSpec i c := by
  have hbm : i.bitmap = [] := by
    rcases hinv with ⟨_, _, h⟩ | ⟨h1, _⟩
    · exact h
    · omega
  have hs : c - byteAlign c < 8 := sub_byteAlign_lt c
  have hRc : byteAlign c ≤ c := byteAlign_le hc
  have hmod : (c - byteAlign c) % 8 = c - byteAlign c := Nat.mod_eq_of_lt hs
  have hres : setActive i c
      = { firstCheckpoint := c, lastCheckpoint := c,
          bitmap := [128 >>> (c - byteAlign c)] } := by
    rw [setActive, if_pos hf0, hmod]
  have hbit1 : bmBit [128 >>> (c - byteAlign c)] (c - byteAlign c) = true := by
    rw [bmBit_cons_lt hs, byteBit_mask hs hs]
    simp
  have hbitk : ∀ k, bmBit [128 >>> (c - byteAlign c)] k = true → k = c - byteAlign c := by
    intro k hk
    have hk8 : k < 8 := by
      have := bmBit_lt_of_true hk
      simpa using this
    rw [bmBit_cons_lt hk8, byteBit_mask hs hk8] at hk
    simpa using hk
  refine ⟨?_, ?_, ?_, ?_⟩
  · rw [hres]
    right
    refine ⟨hc, le_refl c, ?_, ?_, ?_, ?_, ?_⟩
    · intro b hb
      rcases List.mem_singleton.mp hb with rfl
      exact mask_lt _
    · show 1 = (c - byteAlign c) / 8 + 1
      omega
    · exact hbit1
    · exact hbit1
    · intro k _ hk
      have := hbitk k hk
      subst this
      show c ≤ byteAlign c + (c - byteAlign c) ∧ byteAlign c + (c - byteAlign c) ≤ c
      omega
  · rw [hres, if_pos hf0]
  · rw [hres, if_pos hf0]
  · intro x
    have hraw0 : rawActive i x = false := by
      rw [rawActive, hbm, bmBit_of_le (by simp)]
      simp
    rw [hraw0, hres]
    show (decide (byteAlign c ≤ x) && bmBit [128 >>> (c - byteAlign c)] (x - byteAlign c))
      = (false || decide (x = c))
    by_cases hx : x = c
    · subst hx
      rw [decide_eq_true hRc, hbit1]
      simp
    · rw [Bool.false_or, decide_eq_false hx]
      by_cases hRx : byteAlign c ≤ x
      · rw [decide_eq_true hRx, Bool.true_and]
        cases hb : bmBit [128 >>> (c - byteAlign c)] (x - byteAlign c)
        · rfl
        · have := hbitk _ hb
          omega
      · rw [decide_eq_false hRx]
        simp

theorem BitmapInv.nonempty {i : CheckpointIndex} (hinv : BitmapInv i)
    (hf0 : i.firstCheckpoint ≠ 0) :
    1 ≤ i.firstCheckpoint ∧ i.firstCheckpoint ≤ i.lastCheckpoint ∧ ByteOk i.bitmap ∧
    i.bitmap.length = (i.lastCheckpoint - i.rangeFirstCheckpoint) / 8 + 1 ∧
    bmBit i.bitmap (i.firstCheckpoint - i.rangeFirstCheckpoint) = true ∧
    bmBit i.bitmap (i.lastCheckpoint - i.rangeFirstCheckpoint) = true ∧
    ∀ k, k < 8 * i.bitmap.length → bmBit i.bitmap k = true →
      i.firstCheckpoint ≤ i.rangeFirstCheckpoint + k ∧
      i.rangeFirstCheckpoint + k ≤ i.lastCheckpoint := by
  rcases hinv with ⟨h, _⟩ | h
  · exact absurd h hf0
  · exact h

theorem setActive_spec_inspan {i : CheckpointIndex} {c : Nat} (hinv : BitmapInv i)
    (hf0 : i.firstCheckpoint ≠ 0) (hc : 1 ≤ c)
    (hB : i.rangeFirstCheckpoint ≤ c ∧
      c - i.rangeFirstCheckpoint < 8 * i.bitmap.length) :
    SetActiveSpec i c := by
  obtain ⟨hf1, hfl, hok, hlen, hbf, hbl, hbnd⟩ := hinv.nonempty hf0
  have hRdef : i.rangeFirstCheckpoint = byteAlign i.firstCheckpoint := rfl
  have hRf : byteAlign i.firstCheckpoint ≤ i.firstCheckpoint := byteAlign_le hf1
  have hfR : i.firstCheckpoint - byteAlign i.firstCheckpoint < 8 := sub_byteAlign_lt _
  have hres : setActive i c
      = { firstCheckpoint := min i.firstCheckpoint c,
          lastCheckpoint := max i.lastCheckpoint c,
          bitmap := setBmBit i.bitmap (c - i.rangeFirstCheckpoint) } := by
    rw [setActive, if_neg hf0, if_pos hB]
  have hdiv : (c - i.rangeFirstCheckpoint) / 8 < i.bitmap.length := by omega
  have hbit := bmBit_setBmBit hdiv
  have hR' : byteAlign (min i.firstCheckpoint c) = i.rangeFirstCheckpoint := by
    rcases le_total i.firstCheckpoint c with h | h
    · rw [min_eq_left h, hRdef]
    · rw [min_eq_right h, hRdef]
      exact byteAlign_of_mem (by omega) (by omega)
  refine ⟨?_, ?_, ?_, ?_⟩
  · rw [hres]
    right
    refine ⟨?_, ?_, ?_, ?_, ?_, ?_, ?_⟩
    · show 1 ≤ min i.firstCheckpoint c
      omega
    · show min i.firstCheckpoint c ≤ max i.lastCheckpoint c
      omega
    · exact byteOk_setBmBit hok _
    · show (setBmBit i.bitmap (c - i.rangeFirstCheckpoint)).length
        = (max i.lastCheckpoint c - byteAlign (min i.firstCheckpoint c)) / 8 + 1
      rw [length_setBmBit, hR']
      rcases le_or_lt c i.lastCheckpoint with hcl | hcl
      · rw [max_eq_left hcl]
        omega
      · rw [max_eq_right (le_of_lt hcl)]
        omega
    · show bmBit (setBmBit i.bitmap (c - i.rangeFirstCheckpoint))
        (min i.firstCheckpoint c - byteAlign (min i.firstCheckpoint c)) = true
      rw [hR', hbit]
      rcases le_total i.firstCheckpoint c with h | h
      · rw [min_eq_left h]
        simp [hbf]
      · rw [min_eq_right h]
        simp
    · show bmBit (setBmBit i.bitmap (c - i.rangeFirstCheckpoint))
        (max i.lastCheckpoint c - byteAlign (min i.firstCheckpoint c)) = true
      rw [hR', hbit]
      rcases le_total c i.lastCheckpoint with h | h
      · rw [max_eq_left h]
        simp [hbl]
      · rw [max_eq_right h]
        simp
    · show ∀ k, k < 8 * (setBmBit i.bitmap (c - i.rangeFirstCheckpoint)).length →
        bmBit (setBmBit i.bitmap (c - i.rangeFirstCheckpoint)) k = true →
        min i.firstCheckpoint c ≤ byteAlign (min i.firstCheckpoint c) + k ∧
        byteAlign (min i.firstCheckpoint c) + k ≤ max i.lastCheckpoint c
      intro k hk hkbit
      rw [length_setBmBit] at hk
      rw [hbit, Bool.or_eq_true] at hkbit
      rw [hR']
      rcases hkbit with hold | hnew
      · have := hbnd k hk hold
        omega
      · have hkc : k = c - i.rangeFirstCheckpoint := by simpa using hnew
        omega
  · rw [hres, if_neg hf0]
  · rw [hres, if_neg hf0]
  · intro x
    rw [hres, rawActive, rawActive]
    show (decide (byteAlign (min i.firstCheckpoint c) ≤ x) &&
        bmBit (setBmBit i.bitmap (c - i.rangeFirstCheckpoint))
          (x - byteAlign (min i.firstCheckpoint c)))
      = ((decide (i.rangeFirstCheckpoint ≤ x) &&
          bmBit i.bitmap (x - i.rangeFirstCheckpoint)) || decide (x = c))
    rw [hR', hbit]
    by_cases hRx : i.rangeFirstCheckpoint ≤ x
    · rw [decide_eq_true hRx]
      have hdec : decide (x - i.rangeFirstCheckpoint = c - i.rangeFirstCheckpoint)
          = decide (x = c) := by
        simp only [decide_eq_decide]
        omega
      rw [hdec]
      simp
    · rw [decide_eq_false hRx]
      have hxc : decide (x = c) = false := by
        simp only [decide_eq_false_iff_not]
        omega
      rw [hxc]
      simp

theorem setActive_spec_right {i : CheckpointIndex} {c : Nat} (hinv : BitmapInv i)
    (hf0 : i.firstCheckpoint ≠ 0) (hc : 1 ≤ c)
    (hB : ¬(i.rangeFirstCheckpoint ≤ c ∧
      c - i.rangeFirstCheckpoint < 8 * i.bitmap.length))
    (hl : i.lastCheckpoint < c) : SetActiveSpec i c := by
  obtain ⟨hf1, hfl, hok, hlen, hbf, hbl, hbnd⟩ := hinv.nonempty hf0
  have hRdef : i.rangeFirstCheckpoint = byteAlign i.firstCheckpoint := rfl
  have hRf : byteAlign i.firstCheckpoint ≤ i.firstCheckpoint := byteAlign_le hf1
  have hfR : i.firstCheckpoint - byteAlign i.firstCheckpoint < 8 := sub_byteAlign_lt _
  have hRc : i.rangeFirstCheckpoint ≤ c := by omega
  have hcR8 : 8 * i.bitmap.length ≤ c - i.rangeFirstCheckpoint := by
    rcases Nat.lt_or_ge (c - i.rangeFirstCheckpoint) (8 * i.bitmap.length) with h | h
    · exact absurd ⟨hRc, h⟩ hB
    · exact h
  have hres : setActive i c
      = { firstCheckpoint := i.firstCheckpoint,
          lastCheckpoint := c,
          bitmap := setBmBit
            (i.bitmap ++ List.replicate
              ((c - i.rangeFirstCheckpoint) / 8 + 1 - i.bitmap.length) 0)
            (c - i.rangeFirstCheckpoint) } := by
    rw [setActive, if_neg hf0, if_neg hB, if_pos hl]
  have hlen2 : (i.bitmap ++ List.replicate
      ((c - i.rangeFirstCheckpoint) / 8 + 1 - i.bitmap.length) 0).length
      = (c - i.rangeFirstCheckpoint) / 8 + 1 := by
    rw [List.length_append, List.length_replicate]
    omega
  have hok2 : ByteOk (i.bitmap ++ List.replicate
      ((c - i.rangeFirstCheckpoint) / 8 + 1 - i.bitmap.length) 0) := by
    intro b hb
    rcases List.mem_append.mp hb with h | h
    · exact hok b h
    · rw [List.eq_of_mem_replicate h]
      norm_num
  have hdiv : (c - i.rangeFirstCheckpoint) / 8
      < (i.bitmap ++ List.replicate
        ((c - i.rangeFirstCheckpoint) / 8 + 1 - i.bitmap.length) 0).length := by
    rw [hlen2]
    omega
  have hbit0 := bmBit_setBmBit hdiv
  have hbit : ∀ k, bmBit (setBmBit
      (i.bitmap ++ List.replicate
        ((c - i.rangeFirstCheckpoint) / 8 + 1 - i.bitmap.length) 0)
      (c - i.rangeFirstCheckpoint)) k
      = (bmBit i.bitmap k || decide (k = c - i.rangeFirstCheckpoint)) := by
    intro k
    rw [hbit0 k, bmBit_append_replicate]
  refine ⟨?_, ?_, ?_, ?_⟩
  · rw [hres]
    right
    refine ⟨hf1, (by omega : i.firstCheckpoint ≤ c), byteOk_setBmBit hok2 _, ?_, ?_, ?_, ?_⟩
    · show (setBmBit _ _).length = (c - byteAlign i.firstCheckpoint) / 8 + 1
      rw [length_setBmBit, hlen2, hRdef]
    · show bmBit _ (i.firstCheckpoint - byteAlign i.firstCheckpoint) = true
      rw [hbit, ← hRdef]
      simp [hbf]
    · show bmBit _ (c - byteAlign i.firstCheckpoint) = true
      rw [hbit, ← hRdef]
      simp
    · intro k hk hkbit
      rw [hbit, Bool.or_eq_true] at hkbit
      show i.firstCheckpoint ≤ byteAlign i.firstCheckpoint + k ∧
        byteAlign i.firstCheckpoint + k ≤ c
      rcases hkbit with hold | hnew
      · have hklt := bmBit_lt_of_true hold
        have := hbnd k hklt hold
        omega
      · have hkc : k = c - i.rangeFirstCheckpoint := by simpa using hnew
        omega
  · rw [hres, if_neg hf0]
    exact (min_eq_left (by omega : i.firstCheckpoint ≤ c)).symm
  · rw [hres, if_neg hf0]
    exact (max_eq_right (by omega : i.lastCheckpoint ≤ c)).symm
  · intro x
    rw [hres, rawActive, rawActive]
    show (decide (byteAlign i.firstCheckpoint ≤ x) &&
        bmBit _ (x - byteAlign i.firstCheckpoint))
      = ((decide (i.rangeFirstCheckpoint ≤ x) &&
          bmBit i.bitmap (x - i.rangeFirstCheckpoint)) || decide (x = c))
    rw [hbit, ← hRdef]
    by_cases hRx : i.rangeFirstCheckpoint ≤ x
    · rw [decide_eq_true hRx]
      have hdec : decide (x - i.rangeFirstCheckpoint = c - i.rangeFirstCheckpoint)
          = decide (x = c) := by
        simp only [decide_eq_decide]
        omega
      rw [hdec]
      simp
    · rw [decide_eq_false hRx]
      have hxc : decide (x = c) = false := by
        simp only [decide_eq_false_iff_not]
        omega
      rw [hxc]
      simp

theorem setActive_spec_left {i : CheckpointIndex} {c : Nat} (hinv : BitmapInv i)
    (hf0 : i.firstCheckpoint ≠ 0) (hc : 1 ≤ c)
    (hB : ¬(i.rangeFirstCheckpoint ≤ c ∧
      c - i.rangeFirstCheckpoint < 8 * i.bitmap.length))
    (hl : ¬i.lastCheckpoint < c) : SetActiveSpec i c := by
  obtain ⟨hf1, hfl, hok, hlen, hbf, hbl, hbnd⟩ := hinv.nonempty hf0
  have hRdef : i.rangeFirstCheckpoint = byteAlign i.firstCheckpoint := rfl
  have hRf : byteAlign i.firstCheckpoint ≤ i.firstCheckpoint := byteAlign_le hf1
  have hfR : i.firstCheckpoint - byteAlign i.firstCheckpoint < 8 := sub_byteAlign_lt _
  have hcR : c < i.rangeFirstCheckpoint := by
    rcases Nat.lt_or_ge c i.rangeFirstCheckpoint with h | h
    · exact h
    · exact absurd ⟨h, by omega⟩ hB
  have hRcc : byteAlign c ≤ c := byteAlign_le hc
  have hcRc : c - byteAlign c < 8 := sub_byteAlign_lt c
  have hdvd : 8 ∣ i.rangeFirstCheckpoint - byteAlign c := by
    rw [hRdef]
    exact byteAlign_dvd_sub (by omega)
  have h8m : (i.rangeFirstCheckpoint - byteAlign c) / 8 * 8
      = i.rangeFirstCheckpoint - byteAlign c := Nat.div_mul_cancel hdvd
  have hres : setActive i c
      = { firstCheckpoint := c,
          lastCheckpoint := i.lastCheckpoint,
          bitmap := setBmBit
            (List.replicate ((i.rangeFirstCheckpoint - byteAlign c) / 8) 0
              ++ i.bitmap)
            (c - byteAlign c) } := by
    rw [setActive, if_neg hf0, if_neg hB, if_neg hl]
  have hlenp : (List.replicate ((i.rangeFirstCheckpoint - byteAlign c) / 8) 0
      ++ i.bitmap).length
      = (i.rangeFirstCheckpoint - byteAlign c) / 8 + i.bitmap.length := by
    rw [List.length_append, List.length_replicate]
  have hok2 : ByteOk (List.replicate ((i.rangeFirstCheckpoint - byteAlign c) / 8) 0
      ++ i.bitmap) := by
    intro b hb
    rcases List.mem_append.mp hb with h | h
    · rw [List.eq_of_mem_replicate h]
      norm_num
    · exact hok b h
  have hdiv : (c - byteAlign c) / 8
      < (List.replicate ((i.rangeFirstCheckpoint - byteAlign c) / 8) 0
        ++ i.bitmap).length := by
    rw [hlenp]
    omega
  have hbit0 := bmBit_setBmBit hdiv
  have hbit : ∀ k, bmBit (setBmBit
      (List.replicate ((i.rangeFirstCheckpoint - byteAlign c) / 8) 0 ++ i.bitmap)
      (c - byteAlign c)) k
      = ((decide (8 * ((i.rangeFirstCheckpoint - byteAlign c) / 8) ≤ k) &&
          bmBit i.bitmap (k - 8 * ((i.rangeFirstCheckpoint - byteAlign c) / 8)))
        || decide (k = c - byteAlign c)) := by
    intro k
    rw [hbit0 k, bmBit_prepend_replicate]
  refine ⟨?_, ?_, ?_, ?_⟩
  · rw [hres]
    right
    refine ⟨hc, (by omega : c ≤ i.lastCheckpoint), byteOk_setBmBit hok2 _, ?_, ?_, ?_, ?_⟩
    · show (setBmBit _ _).length = (i.lastCheckpoint - byteAlign c) / 8 + 1
      rw [length_setBmBit, hlenp]
      omega
    · show bmBit _ (c - byteAlign c) = true
      rw [hbit]
      simp
    · show bmBit _ (i.lastCheckpoint - byteAlign c) = true
      rw [hbit]
      have e1 : decide (8 * ((i.rangeFirstCheckpoint - byteAlign c) / 8)
          ≤ i.lastCheckpoint - byteAlign c) = true := by
        simp only [decide_eq_true_eq]
        omega
      have e2 : i.lastCheckpoint - byteAlign c
          - 8 * ((i.rangeFirstCheckpoint - byteAlign c) / 8)
          = i.lastCheckpoint - i.rangeFirstCheckpoint := by
        omega
      rw [e1, e2, hbl]
      simp
    · intro k hk hkbit
      rw [hbit, Bool.or_eq_true] at hkbit
      show c ≤ byteAlign c + k ∧ byteAlign c + k ≤ i.lastCheckpoint
      rcases hkbit with hold | hnew
      · rw [Bool.and_eq_true, decide_eq_true_eq] at hold
        obtain ⟨hge, hbm⟩ := hold
        have hklt := bmBit_lt_of_true hbm
        have := hbnd _ hklt hbm
        omega
      · have hkc : k = c - byteAlign c := by simpa using hnew
        omega
  · rw [hres, if_neg hf0]
    exact (min_eq_right (by omega : c ≤ i.firstCheckpoint)).symm
  · rw [hres, if_neg hf0]
    exact (max_eq_left (by omega : c ≤ i.lastCheckpoint)).symm
  · intro x
    rw [hres, rawActive, rawActive]
    show (decide (byteAlign c ≤ x) && bmBit _ (x - byteAlign c))
      = ((decide (i.rangeFirstCheckpoint ≤ x) &&
          bmBit i.bitmap (x - i.rangeFirstCheckpoint)) || decide (x = c))
    rw [hbit]
    by_cases hRx : byteAlign c ≤ x
    · rw [decide_eq_true hRx]
      have e1 : decide (8 * ((i.rangeFirstCheckpoint - byteAlign c) / 8)
          ≤ x - byteAlign c) = decide (i.rangeFirstCheckpoint ≤ x) := by
        simp only [decide_eq_decide]
        omega
      have e2 : x - byteAlign c - 8 * ((i.rangeFirstCheckpoint - byteAlign c) / 8)
          = x - i.rangeFirstCheckpoint := by
        omega
      have e3 : decide (x - byteAlign c = c - byteAlign c) = decide (x = c) := by
        simp only [decide_eq_decide]
        omega
      rw [e1, e2, e3]
      simp
    · rw [decide_eq_false hRx]
      have hxR : decide (i.rangeFirstCheckpoint ≤ x) = false := by
        simp only [decide_eq_false_iff_not]
        omega
      have hxc : decide (x = c) = false := by
        simp only [decide_eq_false_iff_not]
        omega
      rw [hxR, hxc]
      simp

theorem setActive_spec {i : CheckpointIndex} {c : Nat} (hinv : BitmapInv i)
    (hc : 1 ≤ c) : SetActiveSpec i c := by
  by_cases hf0 : i.firstCheckpoint = 0
  · exact setActive_spec_empty hinv hf0 hc
  · by_cases hB : i.rangeFirstCheckpoint ≤ c ∧
        c - i.rangeFirstCheckpoint < 8 * i.bitmap.length
    · exact setActive_spec_inspan hinv hf0 hc hB
    · by_cases hl : i.lastCheckpoint < c
      · exact setActive_spec_right hinv hf0 hc hB hl
      · exact setActive_spec_left hinv hf0 hc hB hl

theorem setActive_inv {i : CheckpointIndex} {c : Nat} (hinv : BitmapInv i)
    (hc : 1 ≤ c) : BitmapInv (setActive i c) :=
  (setActive_spec hinv hc).1

theorem setActive_first {i : CheckpointIndex} {c : Nat} (hinv : BitmapInv i)
    (hc : 1 ≤ c) : (setActive i c).firstCheckpoint
      = (if i.firstCheckpoint = 0 then c else min i.firstCheckpoint c) :=
  (setActive_spec hinv hc).2.1

theorem setActive_last {i : CheckpointIndex} {c : Nat} (hinv : BitmapInv i)
    (hc : 1 ≤ c) : (setActive i c).lastCheckpoint
      = (if i.firstCheckpoint = 0 then c else max i.lastCheckpoint c) :=
  (setActive_spec hinv hc).2.2.1

theorem isActive_setActive {i : CheckpointIndex} {c : Nat} (hinv : BitmapInv i)
    (hc : 1 ≤ c) (x : Nat) :
    isActive (setActive i c) x = (isActive i x || decide (x = c)) := by
  rw [isActive_eq_rawActive (setActive_inv hinv hc), isActive_eq_rawActive hinv,
    (setActive_spec hinv hc).2.2.2 x]

theorem emptyIndex_inv : BitmapInv emptyIndex := by
  left
  exact ⟨rfl, rfl, rfl⟩

theorem bmBit_replicate_zero (n k : Nat) : bmBit (List.replicate n 0) k = false := by
  rw [bmBit_def]
  have hz : (List.replicate n (0:Nat)).getD (k / 8) 0 = 0 := by
    by_cases h : k / 8 < n
    · simp [List.getD_eq_getElem?_getD, List.getElem?_replicate, h]
    · exact getD_eq_zero_of_le (by simp only [List.length_replicate]; omega)
  rw [hz]
  exact byteBit_zero _

theorem byteOk_replicate_zero (n : Nat) : ByteOk (List.replicate n 0) := by
  intro b hb
  rw [List.eq_of_mem_replicate hb]
  norm_num

theorem rawActive_nil {i : CheckpointIndex} (h : i.bitmap = []) (x : Nat) :
    rawActive i x = false := by
  rw [rawActive, h, bmBit_of_le (by simp)]
  simp

-- ### The behaviour of `merge`


theorem merge_spec {a b : CheckpointIndex} (ha : BitmapInv a) (hb : BitmapInv b) :
    MergeSpec a b := by
  by_cases hb0 : b.firstCheckpoint = 0
  · have hbm : b.bitmap = [] := by
      rcases hb with ⟨_, _, h⟩ | ⟨h1, _⟩
      · exact h
      · omega
    have hres : mergeIdx a b = a := by rw [mergeIdx, if_pos hb0]
    refine ⟨by rw [hres]; exact ha, ?_, ?_, ?_⟩
    · rw [hres, if_pos hb0]
    · rw [hres, if_pos hb0]
    · intro x
      rw [hres, rawActive_nil hbm]
      simp
  · by_cases ha0 : a.firstCheckpoint = 0
    · have ham : a.bitmap = [] := by
        rcases ha with ⟨_, _, h⟩ | ⟨h1, _⟩
        · exact h
        · omega
      have hres : mergeIdx a b = b := by rw [mergeIdx, if_neg hb0, if_pos ha0]
      refine ⟨by rw [hres]; exact hb, ?_, ?_, ?_⟩
      · rw [hres, if_neg hb0, if_pos ha0]
      · rw [hres, if_neg hb0, if_pos ha0]
      · intro x
        rw [hres, rawActive_nil ham]
        simp
    · obtain ⟨hfa1, hfla, hoka, hlena, hbfa, hbla, hbnda⟩ := ha.nonempty ha0
      obtain ⟨hfb1, hflb, hokb, hlenb, hbfb, hblb, hbndb⟩ := hb.nonempty hb0
      have hRa : a.rangeFirstCheckpoint = byteAlign a.firstCheckpoint := rfl
      have hRb : b.rangeFirstCheckpoint = byteAlign b.firstCheckpoint := rfl
      have hRaf : byteAlign a.firstCheckpoint ≤ a.firstCheckpoint := byteAlign_le hfa1
      have hRbf : byteAlign b.firstCheckpoint ≤ b.firstCheckpoint := byteAlign_le hfb1
      have hfaR : a.firstCheckpoint - byteAlign a.firstCheckpoint < 8 := sub_byteAlign_lt _
      have hfbR : b.firstCheckpoint - byteAlign b.firstCheckpoint < 8 := sub_byteAlign_lt _
      have hmin1 : 1 ≤ min a.firstCheckpoint b.firstCheckpoint := by omega
      have hRm : byteAlign (min a.firstCheckpoint b.firstCheckpoint)
          ≤ byteAlign a.firstCheckpoint := byteAlign_mono (by omega)
      have hRm2 : byteAlign (min a.firstCheckpoint b.firstCheckpoint)
          ≤ byteAlign b.firstCheckpoint := byteAlign_mono (by omega)
      have hRmm : byteAlign (min a.firstCheckpoint b.firstCheckpoint)
          ≤ min a.firstCheckpoint b.firstCheckpoint := byteAlign_le hmin1
      have hRmin8 : min a.firstCheckpoint b.firstCheckpoint
          - byteAlign (min a.firstCheckpoint b.firstCheckpoint) < 8 := sub_byteAlign_lt _
      have hdvdA : 8 ∣ byteAlign a.firstCheckpoint
          - byteAlign (min a.firstCheckpoint b.firstCheckpoint) :=
        byteAlign_dvd_sub (by omega)
      have hdvdB : 8 ∣ byteAlign b.firstCheckpoint
          - byteAlign (min a.firstCheckpoint b.firstCheckpoint) :=
        byteAlign_dvd_sub (by omega)
      have h8a : (byteAlign a.firstCheckpoint
          - byteAlign (min a.firstCheckpoint b.firstCheckpoint)) / 8 * 8
          = byteAlign a.firstCheckpoint
            - byteAlign (min a.firstCheckpoint b.firstCheckpoint) :=
        Nat.div_mul_cancel hdvdA
      have h8b : (byteAlign b.firstCheckpoint
          - byteAlign (min a.firstCheckpoint b.firstCheckpoint)) / 8 * 8
          = byteAlign b.firstCheckpoint
            - byteAlign (min a.firstCheckpoint b.firstCheckpoint) :=
        Nat.div_mul_cancel hdvdB
      have hres : mergeIdx a b
          = { firstCheckpoint := min a.firstCheckpoint b.firstCheckpoint,
              lastCheckpoint := max a.lastCheckpoint b.lastCheckpoint,
              bitmap := orInto
                (orInto
                  (List.replicate
                    ((max a.lastCheckpoint b.lastCheckpoint
                      - byteAlign (min a.firstCheckpoint b.firstCheckpoint) + 1 + 7) / 8) 0)
                  ((a.rangeFirstCheckpoint
                    - byteAlign (min a.firstCheckpoint b.firstCheckpoint)) / 8)
                  a.bitmap)
                ((b.rangeFirstCheckpoint
                  - byteAlign (min a.firstCheckpoint b.firstCheckpoint)) / 8)
                b.bitmap } := by
        rw [mergeIdx, if_neg hb0, if_neg ha0]
      have hL : (max a.lastCheckpoint b.lastCheckpoint
          - byteAlign (min a.firstCheckpoint b.firstCheckpoint) + 1 + 7) / 8
          = (max a.lastCheckpoint b.lastCheckpoint
            - byteAlign (min a.firstCheckpoint b.firstCheckpoint)) / 8 + 1 := by
        omega
      have hboundA : (a.rangeFirstCheckpoint
          - byteAlign (min a.firstCheckpoint b.firstCheckpoint)) / 8 + a.bitmap.length
          ≤ (max a.lastCheckpoint b.lastCheckpoint
            - byteAlign (min a.firstCheckpoint b.firstCheckpoint) + 1 + 7) / 8 := by
        omega
      have hboundB : (b.rangeFirstCheckpoint
          - byteAlign (min a.firstCheckpoint b.firstCheckpoint)) / 8 + b.bitmap.length
          ≤ (max a.lastCheckpoint b.lastCheckpoint
            - byteAlign (min a.firstCheckpoint b.firstCheckpoint) + 1 + 7) / 8 := by
        omega
      have hlen1 : (orInto
          (List.replicate
            ((max a.lastCheckpoint b.lastCheckpoint
              - byteAlign (min a.firstCheckpoint b.firstCheckpoint) + 1 + 7) / 8) 0)
          ((a.rangeFirstCheckpoint
            - byteAlign (min a.firstCheckpoint b.firstCheckpoint)) / 8)
          a.bitmap).length
          = (max a.lastCheckpoint b.lastCheckpoint
            - byteAlign (min a.firstCheckpoint b.firstCheckpoint) + 1 + 7) / 8 := by
        rw [length_orInto, List.length_replicate]
      have hbit1 : ∀ k, bmBit (orInto
          (List.replicate
            ((max a.lastCheckpoint b.lastCheckpoint
              - byteAlign (min a.firstCheckpoint b.firstCheckpoint) + 1 + 7) / 8) 0)
          ((a.rangeFirstCheckpoint
            - byteAlign (min a.firstCheckpoint b.firstCheckpoint)) / 8)
          a.bitmap) k
          = (decide (8 * ((a.rangeFirstCheckpoint
              - byteAlign (min a.firstCheckpoint b.firstCheckpoint)) / 8) ≤ k) &&
            bmBit a.bitmap (k - 8 * ((a.rangeFirstCheckpoint
              - byteAlign (min a.firstCheckpoint b.firstCheckpoint)) / 8))) := by
        intro k
        rw [bmBit_orInto _ _ _ _ (by rw [List.length_replicate]; exact hboundA),
          bmBit_replicate_zero]
        simp
      have hbit2 : ∀ k, bmBit (mergeIdx a b).bitmap k
          = ((decide (8 * ((a.rangeFirstCheckpoint
              - byteAlign (min a.firstCheckpoint b.firstCheckpoint)) / 8) ≤ k) &&
            bmBit a.bitmap (k - 8 * ((a.rangeFirstCheckpoint
              - byteAlign (min a.firstCheckpoint b.firstCheckpoint)) / 8)))
            || (decide (8 * ((b.rangeFirstCheckpoint
              - byteAlign (min a.firstCheckpoint b.firstCheckpoint)) / 8) ≤ k) &&
            bmBit b.bitmap (k - 8 * ((b.rangeFirstCheckpoint
              - byteAlign (min a.firstCheckpoint b.firstCheckpoint)) / 8)))) := by
        intro k
        rw [hres]
        show bmBit (orInto _ _ b.bitmap) k = _
        rw [bmBit_orInto _ _ _ _ (by rw [hlen1]; exact hboundB), hbit1]
      have hlen2 : (mergeIdx a b).bitmap.length
          = (max a.lastCheckpoint b.lastCheckpoint
            - byteAlign (min a.firstCheckpoint b.firstCheckpoint)) / 8 + 1 := by
        rw [hres]
        show (orInto _ _ b.bitmap).length = _
        rw [length_orInto, hlen1, hL]
      have hfst : (mergeIdx a b).firstCheckpoint
          = min a.firstCheckpoint b.firstCheckpoint := by rw [hres]
      have hlst : (mergeIdx a b).lastCheckpoint
          = max a.lastCheckpoint b.lastCheckpoint := by rw [hres]
      have hokm : ByteOk (mergeIdx a b).bitmap := by
        rw [hres]
        show ByteOk (orInto _ _ b.bitmap)
        exact byteOk_orInto hokb _ _ (byteOk_orInto hoka _ _ (byteOk_replicate_zero _))
      refine ⟨?_, ?_, ?_, ?_⟩
      · right
        rw [hfst, hlst, hlen2]
        have hRfst : (mergeIdx a b).rangeFirstCheckpoint
            = byteAlign (min a.firstCheckpoint b.firstCheckpoint) := by
          rw [CheckpointIndex.rangeFirstCheckpoint, hfst]
        rw [hRfst]
        refine ⟨by omega, by omega, hokm, rfl, ?_, ?_, ?_⟩
        · rw [hbit2]
          rcases le_total a.firstCheckpoint b.firstCheckpoint with h | h
          · rw [min_eq_left h]
            have e1 : decide (8 * ((a.rangeFirstCheckpoint
                - byteAlign (min a.firstCheckpoint b.firstCheckpoint)) / 8)
                ≤ a.firstCheckpoint
                  - byteAlign (min a.firstCheckpoint b.firstCheckpoint)) = true := by
              rw [min_eq_left h, hRa] at *
              simp only [decide_eq_true_eq]
              omega
            have e2 : a.firstCheckpoint
                - byteAlign (min a.firstCheckpoint b.firstCheckpoint)
                - 8 * ((a.rangeFirstCheckpoint
                  - byteAlign (min a.firstCheckpoint b.firstCheckpoint)) / 8)
                = a.firstCheckpoint - a.rangeFirstCheckpoint := by
              rw [min_eq_left h, hRa] at *
              omega
            rw [min_eq_left h] at e1 e2
            rw [e1, e2, hbfa]
            simp
          · rw [min_eq_right h]
            have e1 : decide (8 * ((b.rangeFirstCheckpoint
                - byteAlign (min a.firstCheckpoint b.firstCheckpoint)) / 8)
                ≤ b.firstCheckpoint
                  - byteAlign (min a.firstCheckpoint b.firstCheckpoint)) = true := by
              rw [min_eq_right h, hRb] at *
              simp only [decide_eq_true_eq]
              omega
            have e2 : b.firstCheckpoint
                - byteAlign (min a.firstCheckpoint b.firstCheckpoint)
                - 8 * ((b.rangeFirstCheckpoint
                  - byteAlign (min a.firstCheckpoint b.firstCheckpoint)) / 8)
                = b.firstCheckpoint - b.rangeFirstCheckpoint := by
              rw [min_eq_right h, hRb] at *
              omega
            rw [min_eq_right h] at e1 e2
            rw [e1, e2, hbfb]
            simp
        · rw [hbit2]
          rcases le_total b.lastCheckpoint a.lastCheckpoint with h | h
          · rw [max_eq_left h]
            have e1 : decide (8 * ((a.rangeFirstCheckpoint
                - byteAlign (min a.firstCheckpoint b.firstCheckpoint)) / 8)
                ≤ a.lastCheckpoint
                  - byteAlign (min a.firstCheckpoint b.firstCheckpoint)) = true := by
              rw [hRa] at *
              simp only [decide_eq_true_eq]
              omega
            have e2 : a.lastCheckpoint
                - byteAlign (min a.firstCheckpoint b.firstCheckpoint)
                - 8 * ((a.rangeFirstCheckpoint
                  - byteAlign (min a.firstCheckpoint b.firstCheckpoint)) / 8)
                = a.lastCheckpoint - a.rangeFirstCheckpoint := by
              rw [hRa] at *
              omega
            rw [e1, e2, hbla]
            simp
          · rw [max_eq_right h]
            have e1 : decide (8 * ((b.rangeFirstCheckpoint
                - byteAlign (min a.firstCheckpoint b.firstCheckpoint)) / 8)
                ≤ b.lastCheckpoint
                  - byteAlign (min a.firstCheckpoint b.firstCheckpoint)) = true := by
              rw [hRb] at *
              simp only [decide_eq_true_eq]
              omega
            have e2 : b.lastCheckpoint
                - byteAlign (min a.firstCheckpoint b.firstCheckpoint)
                - 8 * ((b.rangeFirstCheckpoint
                  - byteAlign (min a.firstCheckpoint b.firstCheckpoint)) / 8)
                = b.lastCheckpoint - b.rangeFirstCheckpoint := by
              rw [hRb] at *
              omega
            rw [e1, e2, hblb]
            simp
        · intro k hk hkbit
          rw [hbit2, Bool.or_eq_true, Bool.and_eq_true, Bool.and_eq_true,
            decide_eq_true_eq, decide_eq_true_eq] at hkbit
          rcases hkbit with ⟨hge, hbm⟩ | ⟨hge, hbm⟩
          · have hklt := bmBit_lt_of_true hbm
            have := hbnda _ hklt hbm
            rw [hRa] at *
            omega
          · have hklt := bmBit_lt_of_true hbm
            have := hbndb _ hklt hbm
            rw [hRb] at *
            omega
      · rw [hfst, if_neg hb0, if_neg ha0]
      · rw [hlst, if_neg hb0, if_neg ha0]
      · intro x
        rw [rawActive, rawActive, rawActive, CheckpointIndex.rangeFirstCheckpoint, hfst,
          hbit2]
        by_cases hRx : byteAlign (min a.firstCheckpoint b.firstCheckpoint) ≤ x
        · rw [decide_eq_true hRx]
          have e1 : decide (8 * ((a.rangeFirstCheckpoint
              - byteAlign (min a.firstCheckpoint b.firstCheckpoint)) / 8)
              ≤ x - byteAlign (min a.firstCheckpoint b.firstCheckpoint))
              = decide (a.rangeFirstCheckpoint ≤ x) := by
            rw [hRa] at *
            simp only [decide_eq_decide]
            omega
          have e2 : x - byteAlign (min a.firstCheckpoint b.firstCheckpoint)
              - 8 * ((a.rangeFirstCheckpoint
                - byteAlign (min a.firstCheckpoint b.firstCheckpoint)) / 8)
              = x - a.rangeFirstCheckpoint := by
            rw [hRa] at *
            omega
          have e3 : decide (8 * ((b.rangeFirstCheckpoint
              - byteAlign (min a.firstCheckpoint b.firstCheckpoint)) / 8)
              ≤ x - byteAlign (min a.firstCheckpoint b.firstCheckpoint))
              = decide (b.rangeFirstCheckpoint ≤ x) := by
            rw [hRb] at *
            simp only [decide_eq_decide]
            omega
          have e4 : x - byteAlign (min a.firstCheckpoint b.firstCheckpoint)
              - 8 * ((b.rangeFirstCheckpoint
                - byteAlign (min a.firstCheckpoint b.firstCheckpoint)) / 8)
              = x - b.rangeFirstCheckpoint := by
            rw [hRb] at *
            omega
          rw [e1, e2, e3, e4]
          simp
        · rw [decide_eq_false hRx]
          have e5 : decide (a.rangeFirstCheckpoint ≤ x) = false := by
            rw [hRa] at *
            simp only [decide_eq_false_iff_not]
            omega
          have e6 : decide (b.rangeFirstCheckpoint ≤ x) = false := by
            rw [hRb] at *
            simp only [decide_eq_false_iff_not]
            omega
          rw [e5, e6]
          simp

theorem merge_inv {a b : CheckpointIndex} (ha : BitmapInv a) (hb : BitmapInv b) :
    BitmapInv (mergeIdx a b) :=
  (merge_spec ha hb).1

theorem isActive_mergeIdx {a b : CheckpointIndex} (ha : BitmapInv a)
    (hb : BitmapInv b) (x : Nat) :
    isActive (mergeIdx a b) x = (isActive a x || isActive b x) := by
  rw [isActive_eq_rawActive (merge_inv ha hb), isActive_eq_rawActive ha,
    isActive_eq_rawActive hb, (merge_spec ha hb).2.2.2 x]

theorem merge_first {a b : CheckpointIndex} (ha : BitmapInv a) (hb : BitmapInv b) :
    (mergeIdx a b).firstCheckpoint
      = (if b.firstCheckpoint = 0 then a.firstCheckpoint
         else if a.firstCheckpoint = 0 then b.firstCheckpoint
         else min a.firstCheckpoint b.firstCheckpoint) :=
  (merge_spec ha hb).2.1

theorem merge_last {a b : CheckpointIndex} (ha : BitmapInv a) (hb : BitmapInv b) :
    (mergeIdx a b).lastCheckpoint
      = (if b.firstCheckpoint = 0 then a.lastCheckpoint
         else if a.firstCheckpoint = 0 then b.lastCheckpoint
         else max a.lastCheckpoint b.lastCheckpoint) :=
  (merge_spec ha hb).2.2.1

theorem reachable_inv {i : CheckpointIndex} (h : Reachable i) : BitmapInv i := by
  induction h with
  | empty => exact emptyIndex_inv
  | set hr hc ih => exact setActive_inv ih hc
  | mrg hra hrb iha ihb => exact merge_inv iha ihb

-- ### Correctness of `next_active`

theorem isActive_then {i : CheckpointIndex} {x : Nat} (hx : isActive i x = true) :
    i.firstCheckpoint ≠ 0 ∧ i.firstCheckpoint ≤ x ∧ x ≤ i.lastCheckpoint ∧
    bmBit i.bitmap (x - i.rangeFirstCheckpoint) = true := by
  rw [isActive] at hx
  split at hx
  · next hcond => exact ⟨hcond.1, hcond.2.1, hcond.2.2, hx⟩
  · exact absurd hx (by simp)

theorem nextActive_fail {i : CheckpointIndex} {c0 : Nat}
    (h : (NextActive i c0).2 ≠ none) :
    NextActive i c0 = (0, some BitmapErr.eof) := by
  rw [NextActive] at h ⊢
  by_cases hcond : i.firstCheckpoint = 0 ∨ i.lastCheckpoint < c0
  · rw [if_pos hcond]
  · rw [if_neg hcond] at h ⊢
    simp only at h ⊢
    split
    · next hs =>
      rw [if_pos hs] at h
      exact absurd rfl h
    · rfl

theorem nextActive_some {i : CheckpointIndex} (hinv : BitmapInv i) {c0 r : Nat}
    (h : NextActive i c0 = (r, none)) :
    isActive i r = true ∧ c0 ≤ r ∧
    ∀ x, isActive i x = true → c0 ≤ x → r ≤ x := by
  rw [NextActive] at h
  by_cases hcond : i.firstCheckpoint = 0 ∨ i.lastCheckpoint < c0
  · rw [if_pos hcond] at h
    simp at h
  · rw [if_neg hcond] at h
    push_neg at hcond
    obtain ⟨hf0, hc0l⟩ := hcond
    obtain ⟨hf1, hfl, hok, hlen, hbf, hbl, hbnd⟩ := hinv.nonempty hf0
    have hRdef : i.rangeFirstCheckpoint = byteAlign i.firstCheckpoint := rfl
    have hRf : byteAlign i.firstCheckpoint ≤ i.firstCheckpoint := byteAlign_le hf1
    have hs8 : (max c0 i.firstCheckpoint - i.rangeFirstCheckpoint) % 8 < 8 :=
      Nat.mod_lt _ (by norm_num)
    have hok' : ByteOk (i.bitmap.drop
        ((max c0 i.firstCheckpoint - i.rangeFirstCheckpoint) / 8)) :=
      byteOk_drop hok _
    simp only at h
    by_cases hscan : (scanBytes
        (i.bitmap.drop ((max c0 i.firstCheckpoint - i.rangeFirstCheckpoint) / 8))
        (i.rangeFirstCheckpoint
          + 8 * ((max c0 i.firstCheckpoint - i.rangeFirstCheckpoint) / 8))
        ((max c0 i.firstCheckpoint - i.rangeFirstCheckpoint) % 8)).2 = true
    · rw [if_pos hscan] at h
      obtain ⟨k, hk1, hk2, hk3, hk4⟩ := scanBytes_some _ _ _ hok' hs8 hscan
      rw [bmBit_drop] at hk3
      have hr : r = i.rangeFirstCheckpoint
          + 8 * ((max c0 i.firstCheckpoint - i.rangeFirstCheckpoint) / 8) + k := by
        have := congrArg Prod.fst h
        simp at this
        omega
      have hklt := bmBit_lt_of_true hk3
      have hbnd2 := hbnd _ hklt hk3
      have hract : rawActive i r = true := by
        rw [rawActive]
        have e1 : decide (i.rangeFirstCheckpoint ≤ r) = true := by
          simp only [decide_eq_true_eq]
          omega
        have e2 : r - i.rangeFirstCheckpoint
            = 8 * ((max c0 i.firstCheckpoint - i.rangeFirstCheckpoint) / 8) + k := by
          omega
        rw [e1, e2, hk3]
        simp
      refine ⟨?_, ?_, ?_⟩
      · rw [isActive_eq_rawActive hinv]
        exact hract
      · omega
      · intro x hact hc0x
        obtain ⟨_, hfx, hxl, hbx⟩ := isActive_then hact
        have hxR : i.rangeFirstCheckpoint ≤ x := by omega
        have hxstart : max c0 i.firstCheckpoint ≤ x := by omega
        by_contra hlt
        push_neg at hlt
        have hj : bmBit (i.bitmap.drop
            ((max c0 i.firstCheckpoint - i.rangeFirstCheckpoint) / 8))
            (x - i.rangeFirstCheckpoint
              - 8 * ((max c0 i.firstCheckpoint - i.rangeFirstCheckpoint) / 8)) = true := by
          rw [bmBit_drop]
          have e3 : 8 * ((max c0 i.firstCheckpoint - i.rangeFirstCheckpoint) / 8)
              + (x - i.rangeFirstCheckpoint
                - 8 * ((max c0 i.firstCheckpoint - i.rangeFirstCheckpoint) / 8))
              = x - i.rangeFirstCheckpoint := by
            omega
          rw [e3]
          exact hbx
        have := hk4 (x - i.rangeFirstCheckpoint
            - 8 * ((max c0 i.firstCheckpoint - i.rangeFirstCheckpoint) / 8))
          (by omega) (by omega)
        rw [this] at hj
        exact absurd hj (by simp)
    · rw [if_neg hscan] at h
      simp at h

theorem nextActive_eof {i : CheckpointIndex} (hinv : BitmapInv i) {c0 : Nat}
    (h : (NextActive i c0).2 ≠ none) :
    ∀ x, isActive i x = true → x < c0 := by
  intro x hact
  obtain ⟨hf0, hfx, hxl, hbx⟩ := isActive_then hact
  obtain ⟨hf1, hfl, hok, hlen, hbf, hbl, hbnd⟩ := hinv.nonempty hf0
  have hRdef : i.rangeFirstCheckpoint = byteAlign i.firstCheckpoint := rfl
  have hRf : byteAlign i.firstCheckpoint ≤ i.firstCheckpoint := byteAlign_le hf1
  rw [NextActive] at h
  by_cases hcond : i.firstCheckpoint = 0 ∨ i.lastCheckpoint < c0
  · rcases hcond with h0 | hlast
    · exact absurd h0 hf0
    · omega
  · rw [if_neg hcond] at h
    push_neg at hcond
    obtain ⟨_, hc0l⟩ := hcond
    have hs8 : (max c0 i.firstCheckpoint - i.rangeFirstCheckpoint) % 8 < 8 :=
      Nat.mod_lt _ (by norm_num)
    have hok' : ByteOk (i.bitmap.drop
        ((max c0 i.firstCheckpoint - i.rangeFirstCheckpoint) / 8)) :=
      byteOk_drop hok _
    simp only at h
    by_cases hscan : (scanBytes
        (i.bitmap.drop ((max c0 i.firstCheckpoint - i.rangeFirstCheckpoint) / 8))
        (i.rangeFirstCheckpoint
          + 8 * ((max c0 i.firstCheckpoint - i.rangeFirstCheckpoint) / 8))
        ((max c0 i.firstCheckpoint - i.rangeFirstCheckpoint) % 8)).2 = true
    · rw [if_pos hscan] at h
      exact absurd rfl h
    · have hnone := scanBytes_none _ _ _ hok' hs8 (by simpa using hscan)
      by_contra hge
      push_neg at hge
      have hxR : i.rangeFirstCheckpoint ≤ x := by omega
      have hxstart : max c0 i.firstCheckpoint ≤ x := by omega
      have hj := hnone (x - i.rangeFirstCheckpoint
          - 8 * ((max c0 i.firstCheckpoint - i.rangeFirstCheckpoint) / 8)) (by omega)
      rw [bmBit_drop] at hj
      have e3 : 8 * ((max c0 i.firstCheckpoint - i.rangeFirstCheckpoint) / 8)
          + (x - i.rangeFirstCheckpoint
            - 8 * ((max c0 i.firstCheckpoint - i.rangeFirstCheckpoint) / 8))
          = x - i.rangeFirstCheckpoint := by
        omega
      rw [e3, hbx] at hj
      exact absurd hj (by simp)

-- ### Serialization round-trip

theorem readU32BE_u32be (n : Nat) (rest : List Nat) (h : n < 2 ^ 32) :
    readU32BE (u32be n ++ rest) = n := by
  simp only [u32be, List.cons_append, List.nil_append, readU32BE]
  omega

theorem drop4_u32be (n : Nat) (rest : List Nat) : (u32be n ++ rest).drop 4 = rest := by
  simp [u32be]

theorem length_u32be (n : Nat) : (u32be n).length = 4 := rfl

theorem length_Flush (i : CheckpointIndex) : (Flush i).length = 12 + i.bitmap.length := by
  simp [Flush, u32be]
  omega

theorem drop8_Flush (i : CheckpointIndex) :
    (Flush i).drop 8 = u32be i.bitmap.length ++ i.bitmap := by
  rw [Flush]
  show (u32be i.firstCheckpoint ++ (u32be i.lastCheckpoint ++
    (u32be i.bitmap.length ++ i.bitmap))).drop 8 = _
  simp [u32be]

theorem drop12_Flush (i : CheckpointIndex) : (Flush i).drop 12 = i.bitmap := by
  rw [Flush]
  show (u32be i.firstCheckpoint ++ (u32be i.lastCheckpoint ++
    (u32be i.bitmap.length ++ i.bitmap))).drop 12 = _
  simp [u32be]

theorem newFromBytes_flush {i : CheckpointIndex} (hinv : BitmapInv i)
    (hfu : i.firstCheckpoint < 2 ^ 32) (hlu : i.lastCheckpoint < 2 ^ 32)
    (hbu : i.bitmap.length < 2 ^ 32) :
    NewCheckpointIndex (Flush i) = .ok i := by
  have e1 : readU32BE (Flush i) = i.firstCheckpoint := readU32BE_u32be _ _ hfu
  have e2 : readU32BE ((Flush i).drop 4) = i.lastCheckpoint := by
    rw [Flush]
    show readU32BE ((u32be i.firstCheckpoint ++ (u32be i.lastCheckpoint ++
      (u32be i.bitmap.length ++ i.bitmap))).drop 4) = _
    rw [drop4_u32be]
    exact readU32BE_u32be _ _ hlu
  have e3 : readU32BE ((Flush i).drop 8) = i.bitmap.length := by
    rw [drop8_Flush]
    exact readU32BE_u32be _ _ hbu
  have e4 : (Flush i).drop 12 = i.bitmap := drop12_Flush i
  have e5 : (Flush i).length = 12 + i.bitmap.length := length_Flush i
  rcases hinv with ⟨hf, hl, hbm⟩ | ⟨hf1, hfl, hok, hlen, hbf, hbl, hbnd⟩
  · have hie : i = emptyIndex := by
      cases i
      simp only [emptyIndex] at *
      simp [hf, hl, hbm]
    rw [hie]
    rfl
  · have hRdef : i.rangeFirstCheckpoint = byteAlign i.firstCheckpoint := rfl
    have hbf2 : bmBit i.bitmap (i.firstCheckpoint - byteAlign i.firstCheckpoint) = true := hbf
    have hbl2 : bmBit i.bitmap (i.lastCheckpoint - byteAlign i.firstCheckpoint) = true := hbl
    simp only [NewCheckpointIndex]
    rw [e5, e1, e2, e3, e4]
    rw [if_neg (by omega), if_neg (by omega), if_neg (by simp), if_neg (by omega),
      if_neg (by omega), if_neg (by simp [hbf2]), if_neg (by simp [hbl2])]

-- ### Iteration visits the active checkpoints in ascending order

theorem filter_split_min {L : List Nat} (hL : L.Pairwise (· < ·)) {p : Nat → Bool}
    {c : Nat} (hc : c ∈ L) (hpc : p c = true) (hmin : ∀ j, p j = true → c ≤ j) :
    L.filter p = c :: L.filter (fun j => p j && decide (c < j)) := by
  induction L with
  | nil => cases hc
  | cons x xs ih =>
    rcases List.mem_cons.mp hc with rfl | hmem
    · rw [List.filter_cons_of_pos hpc, List.filter_cons_of_neg (by simp)]
      congr 1
      refine List.filter_congr ?_
      intro j hj
      have hcj : c < j := (List.pairwise_cons.mp hL).1 j hj
      rw [decide_eq_true hcj, Bool.and_true]
    · have hxc : x < c := (List.pairwise_cons.mp hL).1 c hmem
      have hpx : p x = false := by
        cases hpx : p x
        · rfl
        · have := hmin x hpx
          omega
      rw [List.filter_cons_of_neg (by simp [hpx]),
        List.filter_cons_of_neg (by simp [hpx])]
      exact ih (List.pairwise_cons.mp hL).2 hmem

theorem iterFrom_correct {i : CheckpointIndex} (hinv : BitmapInv i) :
    ∀ fuel prev, i.lastCheckpoint ≤ prev + fuel →
    iterFrom i prev fuel
      = (List.range (i.lastCheckpoint + 1)).filter
          (fun c => isActive i c && decide (prev < c)) := by
  intro fuel
  induction fuel with
  | zero =>
    intro prev hle
    rw [iterFrom]
    symm
    rw [List.filter_eq_nil_iff]
    intro c hc
    cases hact : isActive i c
    · simp
    · have := (isActive_then hact).2.2.1
      simp only [Bool.and_eq_true, decide_eq_true_eq, not_and]
      intro _
      omega
  | succ fuel ih =>
    intro prev hle
    rw [iterFrom]
    rcases hna : NextActive i (prev + 1) with ⟨c, err⟩
    cases err with
    | none =>
      obtain ⟨hact, hge, hmin⟩ := nextActive_some hinv hna
      show c :: iterFrom i c fuel = _
      rw [ih c (by omega)]
      have hcl : c ≤ i.lastCheckpoint := (isActive_then hact).2.2.1
      symm
      have hmin2 : ∀ j, (isActive i j && decide (prev < j)) = true → c ≤ j := by
        intro j hj
        rw [Bool.and_eq_true, decide_eq_true_eq] at hj
        exact hmin j hj.1 (by omega)
      have hc2 : c ∈ List.range (i.lastCheckpoint + 1) := by
        simp only [List.mem_range]
        omega
      have hpc2 : (isActive i c && decide (prev < c)) = true := by
        rw [hact, decide_eq_true (by omega : prev < c)]
        rfl
      have hsplit := filter_split_min
        (List.pairwise_lt_range (i.lastCheckpoint + 1)) hc2 hpc2 hmin2
      rw [hsplit]
      congr 1
      refine List.filter_congr ?_
      intro j _
      by_cases hcj : c < j
      · have hpj : prev < j := by omega
        simp [hcj, hpj]
      · simp [hcj]
    | some e =>
      show ([] : List Nat) = _
      have hnone := nextActive_eof hinv
        (show (NextActive i (prev + 1)).2 ≠ none by rw [hna]; simp)
      symm
      rw [List.filter_eq_nil_iff]
      intro x hx
      cases hact : isActive i x
      · simp
      · have := hnone x hact
        simp only [Bool.true_and, decide_eq_true_eq, not_lt]
        omega

theorem iterateAll_eq {i : CheckpointIndex} (hinv : BitmapInv i) :
    iterateAll i = (List.range (i.lastCheckpoint + 1)).filter
      (fun c => isActive i c && decide (0 < c)) :=
  iterFrom_correct hinv (i.lastCheckpoint + 1) 0 (by omega)

theorem mem_iterateAll {i : CheckpointIndex} (hinv : BitmapInv i) (c : Nat) :
    c ∈ iterateAll i ↔ isActive i c = true := by
  rw [iterateAll_eq hinv]
  rw [List.mem_filter, List.mem_range]
  constructor
  · intro ⟨_, h⟩
    exact (Bool.and_eq_true _ _ |>.mp h).1
  · intro h
    obtain ⟨hf0, hfx, hxl, _⟩ := isActive_then h
    refine ⟨by omega, ?_⟩
    rw [h, decide_eq_true (by omega : 0 < c)]
    rfl

theorem iterateAll_sorted {i : CheckpointIndex} (hinv : BitmapInv i) :
    (iterateAll i).Pairwise (· < ·) := by
  rw [iterateAll_eq hinv]
  exact List.Pairwise.filter _ (List.pairwise_lt_range _)

theorem sorted_unique : ∀ {L1 L2 : List Nat}, L1.Pairwise (· < ·) →
    L2.Pairwise (· < ·) → (∀ x, x ∈ L1 ↔ x ∈ L2) → L1 = L2 := by
  intro L1
  induction L1 with
  | nil =>
    intro L2 _ _ h
    cases L2 with
    | nil => rfl
    | cons y ys => exact absurd ((h y).mpr (List.mem_cons_self y ys)) (by simp)
  | cons x xs ih =>
    intro L2 h1 h2 h
    cases L2 with
    | nil => exact absurd ((h x).mp (List.mem_cons_self x xs)) (by simp)
    | cons y ys =>
      have hxy : x = y := by
        rcases List.mem_cons.mp ((h x).mp (List.mem_cons_self x xs)) with he | hxin
        · exact he
        · rcases List.mem_cons.mp ((h y).mpr (List.mem_cons_self y ys)) with he | hyin
          · omega
          · have h1' := (List.pairwise_cons.mp h1).1 y hyin
            have h2' := (List.pairwise_cons.mp h2).1 x hxin
            omega
      subst hxy
      congr 1
      refine ih (List.pairwise_cons.mp h1).2 (List.pairwise_cons.mp h2).2 ?_
      intro z
      constructor
      · intro hz
        have hxz : x < z := (List.pairwise_cons.mp h1).1 z hz
        rcases List.mem_cons.mp ((h z).mp (List.mem_cons_of_mem x hz)) with he | hzin
        · omega
        · exact hzin
      · intro hz
        have hxz : x < z := (List.pairwise_cons.mp h2).1 z hz
        rcases List.mem_cons.mp ((h z).mpr (List.mem_cons_of_mem x hz)) with he | hzin
        · omega
        · exact hzin

-- ### Folding a sequence of `set_active` calls

theorem foldl_inv : ∀ (l : List Nat) (i : CheckpointIndex), BitmapInv i →
    (∀ c ∈ l, 1 ≤ c) → BitmapInv (l.foldl (fun j c => (SetActive j c).1) i) := by
  intro l
  induction l with
  | nil => intro i hinv _; exact hinv
  | cons c rest ih =>
    intro i hinv hl
    exact ih (setActive i c) (setActive_inv hinv (hl c (List.mem_cons_self c rest)))
      (fun d hd => hl d (List.mem_cons_of_mem c hd))

theorem buildIndex_inv {l : List Nat} (hl : ∀ c ∈ l, 1 ≤ c) :
    BitmapInv (buildIndex l) :=
  foldl_inv l emptyIndex emptyIndex_inv hl

theorem decide_mem_cons (x c : Nat) (rest : List Nat) :
    decide (x ∈ c :: rest) = (decide (x = c) || decide (x ∈ rest)) := by
  by_cases h1 : x = c <;> by_cases h2 : x ∈ rest <;> simp [h1, h2]

theorem foldl_isActive : ∀ (l : List Nat) (i : CheckpointIndex), BitmapInv i →
    (∀ c ∈ l, 1 ≤ c) → ∀ x,
    isActive (l.foldl (fun j c => (SetActive j c).1) i) x
      = (isActive i x || decide (x ∈ l)) := by
  intro l
  induction l with
  | nil => intro i _ _ x; simp
  | cons c rest ih =>
    intro i hinv hl x
    have hc := hl c (List.mem_cons_self c rest)
    have hstep : (List.foldl (fun j c => (SetActive j c).1) i (c :: rest))
        = List.foldl (fun j c => (SetActive j c).1) (setActive i c) rest := rfl
    rw [hstep, ih (setActive i c) (setActive_inv hinv hc)
      (fun d hd => hl d (List.mem_cons_of_mem c hd)) x]
    rw [isActive_setActive hinv hc x, decide_mem_cons, Bool.or_assoc]

theorem isActive_emptyIndex (x : Nat) : isActive emptyIndex x = false := by
  rw [isActive, if_neg]
  intro hcond
  exact hcond.1 rfl

theorem isActive_buildIndex {l : List Nat} (hl : ∀ c ∈ l, 1 ≤ c) (x : Nat) :
    isActive (buildIndex l) x = decide (x ∈ l) := by
  rw [buildIndex, foldl_isActive l emptyIndex emptyIndex_inv hl x, isActive_emptyIndex]
  simp

theorem foldl_bounded : ∀ (l : List Nat) (i : CheckpointIndex), BitmapInv i →
    (∀ c ∈ l, 1 ≤ c ∧ c < 2 ^ 32) →
    i.firstCheckpoint < 2 ^ 32 → i.lastCheckpoint < 2 ^ 32 →
    (l.foldl (fun j c => (SetActive j c).1) i).firstCheckpoint < 2 ^ 32 ∧
    (l.foldl (fun j c => (SetActive j c).1) i).lastCheckpoint < 2 ^ 32 := by
  intro l
  induction l with
  | nil => intro i _ _ hf hl; exact ⟨hf, hl⟩
  | cons c rest ih =>
    intro i hinv hl hf hla
    have hc := hl c (List.mem_cons_self c rest)
    have hstep : (List.foldl (fun j c => (SetActive j c).1) i (c :: rest))
        = List.foldl (fun j c => (SetActive j c).1) (setActive i c) rest := rfl
    rw [hstep]
    refine ih (setActive i c) (setActive_inv hinv hc.1)
      (fun d hd => hl d (List.mem_cons_of_mem c hd)) ?_ ?_
    · rw [setActive_first hinv hc.1]
      split <;> omega
    · rw [setActive_last hinv hc.1]
      split <;> omega

theorem inv_len_lt {i : CheckpointIndex} (hinv : BitmapInv i)
    (hl : i.lastCheckpoint < 2 ^ 32) : i.bitmap.length < 2 ^ 32 := by
  rcases hinv with ⟨_, _, hbm⟩ | ⟨hf1, hfl, _, hlen, _⟩
  · rw [hbm]
    simp
  · have hR1 : 1 ≤ i.rangeFirstCheckpoint := by
      show 1 ≤ byteAlign i.firstCheckpoint
      unfold byteAlign
      omega
    omega

theorem byte_ne_of_bmBit {bm : List Nat} {k : Nat} (h : bmBit bm k = true) :
    bm.getD (k / 8) 0 ≠ 0 := by
  intro h0
  rw [bmBit_def, h0, byteBit_zero] at h
  exact absurd h (by simp)

-- ### The claims

/-- C1: for every index satisfying the invariants and every `from`,
`next_active(from)` returns the smallest active checkpoint at or after `from`,
and it fails with end-of-stream exactly when no such checkpoint exists — in
particular whenever the index is empty or `from > last_checkpoint`. -/
theorem C1_nextActive_smallest (i : CheckpointIndex) (hinv : BitmapInv i) (c0 : Nat) :
    ((NextActive i c0).2 = none ↔ ∃ x, isActive i x = true ∧ c0 ≤ x) ∧
    (∀ r, NextActive i c0 = (r, none) →
      isActive i r = true ∧ c0 ≤ r ∧ ∀ x, isActive i x = true → c0 ≤ x → r ≤ x) ∧
    ((i.firstCheckpoint = 0 ∨ i.lastCheckpoint < c0) → (NextActive i c0).2 ≠ none) := by
  refine ⟨⟨?_, ?_⟩, ?_, ?_⟩
  · intro hnone
    rcases hres : NextActive i c0 with ⟨r, err⟩
    have herr : err = none := by rw [hres] at hnone; exact hnone
    subst herr
    obtain ⟨h1, h2, _⟩ := nextActive_some hinv hres
    exact ⟨r, h1, h2⟩
  · rintro ⟨x, hx, hcx⟩
    by_contra hne
    have := nextActive_eof hinv hne x hx
    omega
  · intro r hr
    exact nextActive_some hinv hr
  · intro hcond
    rw [NextActive, if_pos hcond]
    simp

theorem C1_witness : BitmapInv sampleA ∧
    (((NextActive sampleA 10).2 = none ↔ ∃ x, isActive sampleA x = true ∧ 10 ≤ x) ∧
     (∀ r, NextActive sampleA 10 = (r, none) →
       isActive sampleA r = true ∧ 10 ≤ r ∧
       ∀ x, isActive sampleA x = true → 10 ≤ x → r ≤ x) ∧
     ((sampleA.firstCheckpoint = 0 ∨ sampleA.lastCheckpoint < 10) →
       (NextActive sampleA 10).2 ≠ none)) :=
  ⟨by decide, C1_nextActive_smallest sampleA (by decide) 10⟩

/-- C2: after `a.merge(b)` the active set of `a` is the union of the two
original active sets, and `merge` never fails. -/
theorem C2_merge_union (a b : CheckpointIndex) (ha : BitmapInv a) (hb : BitmapInv b) :
    (∀ x, isActive (Merge a b).1 x = (isActive a x || isActive b x)) ∧
    (Merge a b).2 = none :=
  ⟨fun x => isActive_mergeIdx ha hb x, rfl⟩

theorem C2_witness : BitmapInv sampleA ∧ BitmapInv sampleB ∧
    ((∀ x, isActive (Merge sampleA sampleB).1 x
        = (isActive sampleA x || isActive sampleB x)) ∧
     (Merge sampleA sampleB).2 = none) :=
  ⟨by decide, by decide, C2_merge_union sampleA sampleB (by decide) (by decide)⟩

/-- C3: for every index reachable by a sequence of `set_active` calls (with
checkpoint arguments in the u32 range), `new_from_bytes(flush(x))` succeeds and
returns an index with identical fields. -/
theorem C3_serialization_roundtrip (l : List Nat) (hl : ∀ c ∈ l, 1 ≤ c ∧ c < 2 ^ 32) :
    NewCheckpointIndex (Flush (buildIndex l)) = .ok (buildIndex l) := by
  have hinv := buildIndex_inv (fun c hc => (hl c hc).1)
  have hb := foldl_bounded l emptyIndex emptyIndex_inv hl (by decide) (by decide)
  exact newFromBytes_flush hinv hb.1 hb.2 (inv_len_lt hinv hb.2)

theorem C3_witness : (∀ c ∈ [17, 2], 1 ≤ c ∧ c < 2 ^ 32) ∧
    NewCheckpointIndex (Flush (buildIndex [17, 2])) = .ok (buildIndex [17, 2]) :=
  ⟨by decide, C3_serialization_roundtrip [17, 2] (by decide)⟩

/-- C4: for any sequence of `set_active` calls with checkpoints drawn from
`[1, N]`, iterating by repeatedly calling `next_active(previous + 1)` from
`previous = 0` until end-of-stream yields exactly the sorted, deduplicated
sequence of inserted checkpoints (the unique strictly increasing list with the
same membership). -/
theorem C4_ordered_iteration (N : Nat) (l : List Nat) (hl : ∀ c ∈ l, 1 ≤ c ∧ c ≤ N) :
    (iterateAll (buildIndex l)).Pairwise (· < ·) ∧
    (∀ c, c ∈ iterateAll (buildIndex l) ↔ c ∈ l) ∧
    (∀ L, L.Pairwise (· < ·) → (∀ c, c ∈ L ↔ c ∈ l) →
      iterateAll (buildIndex l) = L) := by
  have hpos : ∀ c ∈ l, 1 ≤ c := fun c hc => (hl c hc).1
  have hinv := buildIndex_inv hpos
  have hmem : ∀ c, c ∈ iterateAll (buildIndex l) ↔ c ∈ l := by
    intro c
    rw [mem_iterateAll hinv, isActive_buildIndex hpos]
    simp
  refine ⟨iterateAll_sorted hinv, hmem, ?_⟩
  intro L hL hLmem
  exact sorted_unique (iterateAll_sorted hinv) hL
    (fun x => (hmem x).trans (hLmem x).symm)

theorem C4_witness : (∀ c ∈ [9, 129, 11], 1 ≤ c ∧ c ≤ 150) ∧
    ((iterateAll (buildIndex [9, 129, 11])).Pairwise (· < ·) ∧
     (∀ c, c ∈ iterateAll (buildIndex [9, 129, 11]) ↔ c ∈ [9, 129, 11]) ∧
     (∀ L, L.Pairwise (· < ·) → (∀ c, c ∈ L ↔ c ∈ [9, 129, 11]) →
       iterateAll (buildIndex [9, 129, 11]) = L)) :=
  ⟨by decide, C4_ordered_iteration 150 [9, 129, 11] (by decide)⟩

/-- C5: after every public operation (any reachable state), when the index is
non-empty the bitmap length is exactly
`ceil((last_checkpoint - range_first_checkpoint + 1) / 8)`, there is no leading
and no trailing zero byte, and the bits of `first_checkpoint` and
`last_checkpoint` are both set. -/
theorem C5_tight_bitmap (i : CheckpointIndex) (hr : Reachable i)
    (hne : i.firstCheckpoint ≠ 0) :
    i.bitmap.length = (i.lastCheckpoint - i.rangeFirstCheckpoint + 1 + 7) / 8 ∧
    i.bitmap.getD 0 0 ≠ 0 ∧
    i.bitmap.getD (i.bitmap.length - 1) 0 ≠ 0 ∧
    bmBit i.bitmap (i.firstCheckpoint - i.rangeFirstCheckpoint) = true ∧
    bmBit i.bitmap (i.lastCheckpoint - i.rangeFirstCheckpoint) = true := by
  obtain ⟨hf1, hfl, hok, hlen, hbf, hbl, hbnd⟩ := (reachable_inv hr).nonempty hne
  have hRdef : i.rangeFirstCheckpoint = byteAlign i.firstCheckpoint := rfl
  have hRf : byteAlign i.firstCheckpoint ≤ i.firstCheckpoint := byteAlign_le hf1
  have hfR : i.firstCheckpoint - byteAlign i.firstCheckpoint < 8 := sub_byteAlign_lt _
  refine ⟨by omega, ?_, ?_, hbf, hbl⟩
  · have h0 := byte_ne_of_bmBit hbf
    have e : (i.firstCheckpoint - i.rangeFirstCheckpoint) / 8 = 0 := by omega
    rw [e] at h0
    exact h0
  · have h0 := byte_ne_of_bmBit hbl
    have e : (i.lastCheckpoint - i.rangeFirstCheckpoint) / 8 = i.bitmap.length - 1 := by
      omega
    rw [e] at h0
    exact h0

theorem C5_witness : Reachable (buildIndex [17, 26]) ∧
    (buildIndex [17, 26]).firstCheckpoint ≠ 0 ∧
    ((buildIndex [17, 26]).bitmap.length
      = ((buildIndex [17, 26]).lastCheckpoint
        - (buildIndex [17, 26]).rangeFirstCheckpoint + 1 + 7) / 8 ∧
     (buildIndex [17, 26]).bitmap.getD 0 0 ≠ 0 ∧
     (buildIndex [17, 26]).bitmap.getD ((buildIndex [17, 26]).bitmap.length - 1) 0 ≠ 0 ∧
     bmBit (buildIndex [17, 26]).bitmap ((buildIndex [17, 26]).firstCheckpoint
        - (buildIndex [17, 26]).rangeFirstCheckpoint) = true ∧
     bmBit (buildIndex [17, 26]).bitmap ((buildIndex [17, 26]).lastCheckpoint
        - (buildIndex [17, 26]).rangeFirstCheckpoint) = true) := by
  have hr : Reachable (buildIndex [17, 26]) :=
    Reachable.set (Reachable.set Reachable.empty (by norm_num)) (by norm_num)
  exact ⟨hr, by decide, C5_tight_bitmap (buildIndex [17, 26]) hr (by decide)⟩

/-- C6 (counterexample): `set_active(0)` does not fail — the source has no
argument check — and it silently violates the structural invariants. -/
theorem C6_counterexample :
    (SetActive emptyIndex 0).2 = none ∧ ¬ BitmapInv (SetActive emptyIndex 0).1 :=
  ⟨rfl, by decide⟩

/-- C6 (amended): `set_active` never fails for any argument; for every
`c ≥ 1` and every state satisfying the invariants it preserves them.
`set_active(0)` is not rejected and corrupts the invariants. -/
theorem C6_setActive_total (i : CheckpointIndex) (c : Nat) :
    (SetActive i c).2 = none ∧
    (BitmapInv i → 1 ≤ c → BitmapInv (SetActive i c).1) :=
  ⟨rfl, fun hinv hc => setActive_inv hinv hc⟩

theorem C6_witness : BitmapInv emptyIndex ∧ 1 ≤ 5 ∧
    ((SetActive emptyIndex 5).2 = none ∧ BitmapInv (SetActive emptyIndex 5).1) := by
  have h := C6_setActive_total emptyIndex 5
  exact ⟨by decide, by decide, h.1, h.2 (by decide) (by decide)⟩

/-- C7: from the empty index, `set_active(17); set_active(2)` yields
`first = 2`, `last = 17`, bitmap `[0b0100_0000, 0b0000_0000, 0b1000_0000]`;
in general, extending on the left prepends `(R - Rnew) / 8` zero bytes (where
`Rnew = ((c - 1) / 8) * 8 + 1`), sets the bit for `c` in the first byte, and
leaves `last_checkpoint` unchanged. -/
theorem C7_left_extension :
    (SetActive (SetActive emptyIndex 17).1 2).1
      = { firstCheckpoint := 2, lastCheckpoint := 17, bitmap := [64, 0, 128] } ∧
    (∀ (i : CheckpointIndex) (c : Nat), BitmapInv i → 1 ≤ c →
      c < i.rangeFirstCheckpoint →
      (SetActive i c).1
        = { firstCheckpoint := c, lastCheckpoint := i.lastCheckpoint,
            bitmap := setBmBit
              (List.replicate ((i.rangeFirstCheckpoint - byteAlign c) / 8) 0
                ++ i.bitmap)
              (c - byteAlign c) }) := by
  refine ⟨by decide, ?_⟩
  intro i c hinv hc hlt
  have hf0 : i.firstCheckpoint ≠ 0 := by
    intro h0
    have : i.rangeFirstCheckpoint = 1 := by
      show byteAlign i.firstCheckpoint = 1
      rw [h0]
      decide
    omega
  obtain ⟨hf1, hfl, _, hlen, _, _, _⟩ := hinv.nonempty hf0
  have hRdef : i.rangeFirstCheckpoint = byteAlign i.firstCheckpoint := rfl
  have hRf : byteAlign i.firstCheckpoint ≤ i.firstCheckpoint := byteAlign_le hf1
  show setActive i c = _
  rw [setActive, if_neg hf0, if_neg (by omega), if_neg (by omega)]

theorem C7_witness : BitmapInv (SetActive emptyIndex 17).1 ∧ 1 ≤ 2 ∧
    2 < (SetActive emptyIndex 17).1.rangeFirstCheckpoint ∧
    (SetActive (SetActive emptyIndex 17).1 2).1
      = { firstCheckpoint := 2,
          lastCheckpoint := (SetActive emptyIndex 17).1.lastCheckpoint,
          bitmap := setBmBit
            (List.replicate (((SetActive emptyIndex 17).1.rangeFirstCheckpoint
              - byteAlign 2) / 8) 0 ++ (SetActive emptyIndex 17).1.bitmap)
            (2 - byteAlign 2) } :=
  ⟨by decide, by decide, by decide,
    C7_left_extension.2 (SetActive emptyIndex 17).1 2 (by decide) (by decide) (by decide)⟩

/-- C8: for every byte and every position `after` in `0..7`, `max_bit_after`
returns the most-significant (i.e. smallest-numbered, counted from the MSB)
set bit position at or after `after`, or the not-found sentinel when no such
bit exists; concrete table rows from the tests included. -/
theorem C8_maxBitAfter_contract :
    (∀ b, b < 256 → ∀ a, a < 8 →
      (((maxBitAfter b a).2 = true) ↔ (∃ t, a ≤ t ∧ t < 8 ∧ byteBit b t = true)) ∧
      ((maxBitAfter b a).2 = true →
        a ≤ (maxBitAfter b a).1 ∧ byteBit b (maxBitAfter b a).1 = true ∧
        ∀ t, a ≤ t → byteBit b t = true → (maxBitAfter b a).1 ≤ t)) ∧
    maxBitAfter 40 3 = (4, true) ∧ maxBitAfter 0 0 = (0, false) ∧
    maxBitAfter 1 7 = (7, true) := by
  refine ⟨?_, by decide, by decide, by decide⟩
  intro b hb a ha
  constructor
  · constructor
    · intro h
      obtain ⟨h1, h2, h3, _⟩ := maxBitAfter_found hb ha h
      exact ⟨(maxBitAfter b a).1, h1, h2, h3⟩
    · rintro ⟨t, ht1, ht2, ht3⟩
      cases hmba : (maxBitAfter b a).2
      · have := maxBitAfter_not_found hb ha hmba t ht1
        rw [this] at ht3
        exact absurd ht3 (by simp)
      · rfl
  · intro h
    obtain ⟨h1, _, h3, h4⟩ := maxBitAfter_found hb ha h
    refine ⟨h1, h3, ?_⟩
    intro t ht hbt
    by_contra hlt
    push_neg at hlt
    have := h4 t ht hlt
    rw [this] at hbt
    exact absurd hbt (by simp)

theorem C8_witness : 40 < 256 ∧ 3 < 8 ∧
    ((((maxBitAfter 40 3).2 = true) ↔ (∃ t, 3 ≤ t ∧ t < 8 ∧ byteBit 40 t = true)) ∧
     ((maxBitAfter 40 3).2 = true →
       3 ≤ (maxBitAfter 40 3).1 ∧ byteBit 40 (maxBitAfter 40 3).1 = true ∧
       ∀ t, 3 ≤ t → byteBit 40 t = true → (maxBitAfter 40 3).1 ≤ t)) :=
  ⟨by decide, by decide, C8_maxBitAfter_contract.1 40 (by decide) 3 (by decide)⟩

/-- C9: along `set_active` and `merge`, once `first_checkpoint` is non-zero it
never increases and stays non-zero (the Populated state is absorbing), and
`last_checkpoint` never decreases. -/
theorem C9_anchor_monotonicity (i j : CheckpointIndex) (c : Nat)
    (hi : BitmapInv i) (hj : BitmapInv j) (hc : 1 ≤ c) :
    i.lastCheckpoint ≤ (SetActive i c).1.lastCheckpoint ∧
    i.lastCheckpoint ≤ (Merge i j).1.lastCheckpoint ∧
    (i.firstCheckpoint ≠ 0 →
      (SetActive i c).1.firstCheckpoint ≠ 0 ∧
      (SetActive i c).1.firstCheckpoint ≤ i.firstCheckpoint ∧
      (Merge i j).1.firstCheckpoint ≠ 0 ∧
      (Merge i j).1.firstCheckpoint ≤ i.firstCheckpoint ∧
      ¬((SetActive i c).1.firstCheckpoint = 0 ∧
        (SetActive i c).1.lastCheckpoint = 0) ∧
      ¬((Merge i j).1.firstCheckpoint = 0 ∧ (Merge i j).1.lastCheckpoint = 0)) := by
  have hsf : (SetActive i c).1.firstCheckpoint
      = (if i.firstCheckpoint = 0 then c else min i.firstCheckpoint c) :=
    setActive_first hi hc
  have hsl : (SetActive i c).1.lastCheckpoint
      = (if i.firstCheckpoint = 0 then c else max i.lastCheckpoint c) :=
    setActive_last hi hc
  have hmf : (Merge i j).1.firstCheckpoint
      = (if j.firstCheckpoint = 0 then i.firstCheckpoint
         else if i.firstCheckpoint = 0 then j.firstCheckpoint
         else min i.firstCheckpoint j.firstCheckpoint) :=
    merge_first hi hj
  have hml : (Merge i j).1.lastCheckpoint
      = (if j.firstCheckpoint = 0 then i.lastCheckpoint
         else if i.firstCheckpoint = 0 then j.lastCheckpoint
         else max i.lastCheckpoint j.lastCheckpoint) :=
    merge_last hi hj
  refine ⟨?_, ?_, ?_⟩
  · rw [hsl]
    by_cases h0 : i.firstCheckpoint = 0
    · rw [if_pos h0]
      rcases hi with ⟨_, hl0, _⟩ | ⟨h1, _⟩
      · omega
      · omega
    · rw [if_neg h0]
      omega
  · rw [hml]
    by_cases hj0 : j.firstCheckpoint = 0
    · rw [if_pos hj0]
    · by_cases h0 : i.firstCheckpoint = 0
      · rw [if_neg hj0, if_pos h0]
        rcases hi with ⟨_, hl0, _⟩ | ⟨h1, _⟩
        · omega
        · omega
      · rw [if_neg hj0, if_neg h0]
        omega
  · intro hne
    have hif : 1 ≤ i.firstCheckpoint := ((hi.nonempty hne)).1
    have hset1 : (SetActive i c).1.firstCheckpoint ≠ 0 := by
      rw [hsf, if_neg hne]
      omega
    have hset2 : (SetActive i c).1.firstCheckpoint ≤ i.firstCheckpoint := by
      rw [hsf, if_neg hne]
      omega
    have hm1 : (Merge i j).1.firstCheckpoint ≠ 0 := by
      rw [hmf]
      by_cases hj0 : j.firstCheckpoint = 0
      · rw [if_pos hj0]
        exact hne
      · rw [if_neg hj0, if_neg hne]
        have hjf : 1 ≤ j.firstCheckpoint := ((hj.nonempty hj0)).1
        omega
    have hm2 : (Merge i j).1.firstCheckpoint ≤ i.firstCheckpoint := by
      rw [hmf]
      by_cases hj0 : j.firstCheckpoint = 0
      · rw [if_pos hj0]
      · rw [if_neg hj0, if_neg hne]
        omega
    exact ⟨hset1, hset2, hm1, hm2, fun h => hset1 h.1, fun h => hm1 h.1⟩

theorem C9_witness : BitmapInv sampleA ∧ BitmapInv sampleB ∧ 1 ≤ 5 ∧
    (sampleA.lastCheckpoint ≤ (SetActive sampleA 5).1.lastCheckpoint ∧
     sampleA.lastCheckpoint ≤ (Merge sampleA sampleB).1.lastCheckpoint ∧
     (sampleA.firstCheckpoint ≠ 0 →
       (SetActive sampleA 5).1.firstCheckpoint ≠ 0 ∧
       (SetActive sampleA 5).1.firstCheckpoint ≤ sampleA.firstCheckpoint ∧
       (Merge sampleA sampleB).1.firstCheckpoint ≠ 0 ∧
       (Merge sampleA sampleB).1.firstCheckpoint ≤ sampleA.firstCheckpoint ∧
       ¬((SetActive sampleA 5).1.firstCheckpoint = 0 ∧
         (SetActive sampleA 5).1.lastCheckpoint = 0) ∧
       ¬((Merge sampleA sampleB).1.firstCheckpoint = 0 ∧
         (Merge sampleA sampleB).1.lastCheckpoint = 0))) :=
  ⟨by decide, by decide, by decide,
    C9_anchor_monotonicity sampleA sampleB 5 (by decide) (by decide) (by decide)⟩

/-- C10: whenever `next_active` fails, the returned value is exactly `0` and
the error is exactly the end-of-stream sentinel — `(0, io.EOF)` is the unique
failure result, for every index state and every `from`. -/
theorem C10_failure_pair (i : CheckpointIndex) (c0 : Nat) (e : BitmapErr)
    (h : (NextActive i c0).2 = some e) :
    (NextActive i c0).1 = 0 ∧ e = BitmapErr.eof := by
  have hfail := nextActive_fail
    (show (NextActive i c0).2 ≠ none by rw [h]; simp)
  constructor
  · rw [hfail]
  · have h2 : some e = some BitmapErr.eof := by
      rw [← h, hfail]
    exact Option.some.inj h2

theorem C10_witness : (NextActive emptyIndex 0).2 = some BitmapErr.eof ∧
    ((NextActive emptyIndex 0).1 = 0 ∧ BitmapErr.eof = BitmapErr.eof) :=
  ⟨rfl, C10_failure_pair emptyIndex 0 BitmapErr.eof rfl⟩
